import Mathlib

/-!
Verification of the MesDiscordBot core (team partitioner and rating engine)
against its natural-language specification.

The C++ sources embedded here are:
  * `src/services/team_service.cpp`  — `team_service::form_teams`
  * `src/services/match_service.cpp` — `match_service::apply_match_effect`,
    `match_service::recompute_ratings`, `match_service::upsert_user`
  * `include/models/{user,team,match}.hpp` — the data model

Modelling conventions:
  * C++ `double` values are embedded as exact rationals `ℚ`.  Floating-point
    rounding, `NaN` and infinities have no counterpart in the model, so the
    `std::isfinite` guards of the source (which can never fire on rationals)
    are not represented; the `"Weight sum abnormal (<=0)"` guard is embedded
    structurally (the theorems below show it cannot fire for weight curves
    with the real curves' positivity).
    Decimal literals (`1e-12`, `1e-6`, `0.5`, `400.0`, `4.0`) are read as the
    exact rationals they denote.
  * The transcendental helpers of the source, `std::pow(10.0, x)` (Elo curve)
    and `std::pow(r, alpha)` / `std::pow(r, -alpha)` (weight curve), have no
    exact rational counterpart; they are abstracted as explicit function
    parameters `E`, `pA`, `pNA` of the rating-engine definitions.  Theorems
    assume only properties that the real functions possess (positivity,
    `10^0 = 1`, `10^x > 1` for `x > 0`).
  * `std::mt19937_64` together with `std::uniform_int_distribution` and
    `std::ranges::shuffle` are implementation-defined; they are abstracted as
    a `rand_oracle` (a shuffle function, a stream of coin flips and an
    order-shuffle function) derived from the 64-bit seed by an abstract
    `oracle_of : Nat → rand_oracle` parameter.  The seed selection itself
    (`config.seed ? config.seed : make_seed()`), including the FNV-1a hash of
    the sorted participant ids and the xorshift time mix, is embedded exactly
    over `Nat` reduced mod `2^64`.
  * `std::stable_sort` is embedded as `List.insertionSort`, which computes the
    same (unique) stable sorted permutation.
  * The mutable member state `users_` (an `unordered_map`) is embedded as an
    association list `store`; member functions that mutate it become functions
    `store → ... → store × Except String Unit`, returning the (possibly
    partially updated) store together with the `std::expected` result.
-/

instance {ε α : Type _} [DecidableEq ε] [DecidableEq α] : DecidableEq (Except ε α)
  | .error a, .error b => decidable_of_iff (a = b) (by simp)
  | .error _, .ok _ => .isFalse (by simp)
  | .ok _, .error _ => .isFalse (by simp)
  | .ok a, .ok b => decidable_of_iff (a = b) (by simp)

namespace MesBot

/-- `std::max` on doubles: `(a < b) ? b : a`. -/
def qmax (a b : ℚ) : ℚ := if a < b then b else a

/-- `std::min` on doubles: `(b < a) ? b : a`. -/
def qmin (a b : ℚ) : ℚ := if b < a then b else a

/-- `std::abs` on doubles. -/
def qabs (a : ℚ) : ℚ := if a < 0 then -a else a

/-- Participant record, from `include/models/user.hpp` (`class user`):
snowflake id, display name, current rating `point`, replay anchor
`base_point`, and the `wins`/`games` counters. -/
structure user where
  id : Nat
  username : String
  point : ℚ
  base_point : ℚ
  wins : Nat
  games : Nat
deriving DecidableEq, Repr

instance : Inhabited user := ⟨⟨0, "", 0, 0, 0, 0⟩⟩

/-- Team, from `include/models/team.hpp` (`class team`): a list of member
snapshots. -/
structure team where
  members : List user
deriving DecidableEq, Repr

/-- `team::total_point`: sum of the members' ratings. -/
def team.total_point (t : team) : ℚ :=
  (t.members.map user.point).sum

/-- Match record, from `include/models/match.hpp` (`class match_record`). -/
structure match_record where
  when : Int
  teams : List team
  winning_teams : List Int
deriving DecidableEq, Repr

/-- `team_service::formation_config` from
`include/services/team_service.hpp`: team count, the (unused by
`form_teams`) size-balancing flag, and the seed, where `0` means
"use a random seed". -/
structure formation_config where
  num_teams : Int
  balance_sizes : Bool
  seed : Nat
deriving DecidableEq, Repr

-- Error messages from `include/core/constants.hpp` and the literal strings
-- of `src/services/match_service.cpp`.

/-- `constants::text::teams_must_positive`. -/
def teams_must_positive : String := "隊伍數量需大於 0"

/-- `constants::text::users_not_enough`. -/
def users_not_enough : String := "使用者的數量不夠"

/-- `constants::text::point_must_positive`. -/
def point_must_positive : String := "分數需大於 0"

/-- The literal `"Invalid winner index"` of `apply_match_effect`. -/
def invalid_winner_index : String := "Invalid winner index"

/-- The literal `"Weight sum abnormal (<=0)"` of `apply_match_effect`. -/
def weight_sum_abnormal : String := "Weight sum abnormal (<=0)"

/-! ## The roster store (`match_service::users_`) -/

/-- The roster store: `std::unordered_map<std::uint64_t, user>` embedded as an
association list keyed by the id. -/
abbrev store := List (Nat × user)

/-- `users_.find(id)` — first entry with the given key. -/
def store_find : store → Nat → Option user
  | [], _ => none
  | (k, v) :: rest, i => if k = i then some v else store_find rest i

/-- Overwrite the value stored under an existing key (models mutation through
an `unordered_map` iterator); a missing key leaves the store unchanged. -/
def store_set : store → Nat → user → store
  | [], _, _ => []
  | (k, v) :: rest, i, u => if k = i then (k, u) :: rest else (k, v) :: store_set rest i u

/-- `users_[id] = u` — update an existing entry or append a new one. -/
def store_upsert : store → Nat → user → store
  | [], i, u => [(i, u)]
  | (k, v) :: rest, i, u =>
      if k = i then (k, u) :: rest else (k, v) :: store_upsert rest i u

/-! ## `match_service::upsert_user` -/

/-- `match_service::upsert_user` (`src/services/match_service.cpp`):
reject a negative point, otherwise create-or-update the entry, setting id,
username, `point` and `base_point` (wins/games of an existing entry are
kept, a fresh entry starts from the default-constructed user). -/
def upsert_user (st : store) (i : Nat) (username : String) (point : ℚ) :
    store × Except String Unit :=
  if point < 0 then (st, .error point_must_positive)
  else
    let u0 := (store_find st i).getD default
    (store_upsert st i
      { u0 with id := i, username := username, point := point, base_point := point },
     .ok ())

/-! ## `match_service::apply_match_effect` -/

/-- `ELO_SCALE` constant of `apply_match_effect`. -/
def elo_scale : ℚ := 400

/-- `k_factor` constant of `apply_match_effect`. -/
def k_factor : ℚ := 4

/-- `kMinPower` constant of `apply_match_effect` (rating floor). -/
def k_min_power : ℚ := 0

/-- `kWeightFloor` constant of `apply_match_effect` (`1e-6`). -/
def k_weight_floor : ℚ := 1 / 1000000

/-- Team strength: sum of the current store ratings of the members that are
present in the store (absent members contribute nothing) — the
`team_sum`/`team_rating` computation of `apply_match_effect`. -/
def team_sum (st : store) (t : team) : ℚ :=
  t.members.foldl
    (fun s m =>
      match store_find st m.id with
      | some u => s + u.point
      | none => s) 0

/-- `expected_vs(Ra, Rb) = 1 / (1 + 10^((Rb-Ra)/400))`, with `10^x`
abstracted as the parameter `E`. -/
def expected_vs (E : ℚ → ℚ) (Ra Rb : ℚ) : ℚ :=
  1 / (1 + E ((Rb - Ra) / elo_scale))

/-- The actual pairwise score `(Si, Sj)` for teams `i < j`: `(1,0)` if only
`i` won, `(0,1)` if only `j` won, `(1/2, 1/2)` otherwise. -/
def actual_pair (winners : List Int) (i j : Nat) : ℚ × ℚ :=
  let iw := winners.contains (i : Int)
  let jw := winners.contains (j : Int)
  if iw ∧ ¬jw then (1, 0)
  else if ¬iw ∧ jw then (0, 1)
  else (1/2, 1/2)

/-- One pairwise update of the delta vector: add `K⬝(Si − Ei)` at `i` and
`K⬝(Sj − Ej)` at `j` (with `Ej = 1 − Ei` as in the source). -/
def pair_update (E : ℚ → ℚ) (ratings : List ℚ) (winners : List Int)
    (d : List ℚ) (i j : Nat) : List ℚ :=
  let Ei := expected_vs E (ratings.getD i 0) (ratings.getD j 0)
  let Ej := 1 - Ei
  let s := actual_pair winners i j
  let d1 := d.set i (d.getD i 0 + k_factor * (s.1 - Ei))
  d1.set j (d1.getD j 0 + k_factor * (s.2 - Ej))

/-- The per-team delta vector of `apply_match_effect`: starting from zeros,
accumulate `K⬝(actual − expected)` over every unordered pair `i < j`. -/
def pair_deltas (E : ℚ → ℚ) (ratings : List ℚ) (winners : List Int) : List ℚ :=
  let N := ratings.length
  (List.range N).foldl
    (fun d i =>
      (List.range N).foldl
        (fun d j => if i < j then pair_update E ratings winners d i j else d) d)
    (List.replicate N 0)

/-- The weight of one member in the weighted distribution: `r` is the stored
rating floored at `kWeightFloor` (absent members use the floor itself), and
the weight is `r^(−α)` for a winning team, `r^(+α)` for a losing one; the two
power curves are the abstract parameters `pNA` and `pA`. -/
def member_weight (pA pNA : ℚ → ℚ) (winning : Bool) (st : store) (m : user) : ℚ :=
  let r :=
    match store_find st m.id with
    | some u => qmax u.point k_weight_floor
    | none => k_weight_floor
  if winning then pNA r else pA r

/-- Distribute one team's delta `td` over its members (the body of the
per-team loop of `apply_match_effect`): skip empty teams and zero deltas,
split evenly when the team sum `ts ≤ 0`, otherwise use normalized weights,
failing if the weight normalizer is not positive.  Ratings are floored at
`kMinPower`. -/
def dist_team (pA pNA : ℚ → ℚ) (st : store) (tm : team) (td ts : ℚ) :
    store × Except String Unit :=
  if tm.members = [] then (st, .ok ())
  else if td = 0 then (st, .ok ())
  else if ts ≤ 0 then
    (tm.members.foldl
      (fun s m =>
        match store_find s m.id with
        | some u =>
            store_set s m.id
              { u with point := qmax k_min_power (u.point + td * (1 / (tm.members.length : ℚ))) }
        | none => s) st,
     .ok ())
  else
    let winning := decide (0 < td)
    let ws := tm.members.map (member_weight pA pNA winning st)
    let W := ws.sum
    if ¬ (0 < W) then (st, .error weight_sum_abnormal)
    else
      ((tm.members.zip ws).foldl
        (fun s mw =>
          match store_find s mw.1.id with
          | some u =>
              store_set s mw.1.id
                { u with point := qmax k_min_power (u.point + td * (mw.2 / W)) }
          | none => s) st,
       .ok ())

/-- The rating the distribution step assigns to a store-present member `m`
(stored record `u`) of team `tm` with team delta `td`: unchanged for an
empty team or a zero delta; the floored even share when the team sum is
`≤ 0`; otherwise the floored weighted share, whose normalizer ranges over
ALL member slots of the team — absent members enter it at the
`kWeightFloor` — so the share of an absent slot is dropped, not
redistributed to the present members.  This is the per-member reading of
`dist_team`, stated against the pre-call store. -/
def member_new_point (pA pNA : ℚ → ℚ) (st : store) (tm : team) (td : ℚ)
    (u m : user) : ℚ :=
  if tm.members = [] then u.point
  else if td = 0 then u.point
  else if team_sum st tm ≤ 0 then
    qmax k_min_power (u.point + td * (1 / (tm.members.length : ℚ)))
  else
    qmax k_min_power (u.point + td *
      (member_weight pA pNA (decide (0 < td)) st m /
       (tm.members.map (member_weight pA pNA (decide (0 < td)) st)).sum))

/-- Distribute the deltas team by team, stopping at the first failure and
keeping the updates already applied (the teams are paired with their delta
and their precomputed team sum). -/
def dist_teams (pA pNA : ℚ → ℚ) : store → List (team × ℚ × ℚ) →
    store × Except String Unit
  | st, [] => (st, .ok ())
  | st, (tm, td, ts) :: rest =>
      match dist_team pA pNA st tm td ts with
      | (st', .ok _) => dist_teams pA pNA st' rest
      | (st', .error e) => (st', .error e)

/-- The ids of all members of the winning teams (`winner_ids` of
`apply_match_effect`). -/
def winner_ids (teams : List team) (winners : List Int) : List Nat :=
  winners.foldl (fun acc w => acc ++ ((teams.getD w.toNat ⟨[]⟩).members.map user.id)) []

/-- The win/loss counter pass of `apply_match_effect`: every present member of
every team gets `games + 1`, and `wins + 1` when its id belongs to a winning
team. -/
def bump_counters (wids : List Nat) (st : store) (teams : List team) : store :=
  teams.foldl
    (fun s t =>
      t.members.foldl
        (fun s m =>
          match store_find s m.id with
          | some u =>
              store_set s m.id
                { u with games := u.games + 1,
                         wins := u.wins + (if wids.contains m.id then 1 else 0) }
          | none => s) s) st

/-- `match_service::apply_match_effect`: validate, compute team sums and
pairwise deltas, distribute, then update the counters.  A distribution
failure returns the partially updated store together with the error. -/
def apply_match_effect (E pA pNA : ℚ → ℚ) (st : store) (teams : List team)
    (winners : List Int) : store × Except String Unit :=
  if teams = [] then (st, .error teams_must_positive)
  else if winners.any (fun w => w < 0 ∨ (teams.length : Int) ≤ w) then
    (st, .error invalid_winner_index)
  else
    let ratings := teams.map (team_sum st)
    let deltas := pair_deltas E ratings winners
    match dist_teams pA pNA st (teams.zip (deltas.zip ratings)) with
    | (st1, .ok _) => (bump_counters (winner_ids teams winners) st1 teams, .ok ())
    | (st1, .error e) => (st1, .error e)

/-! ## `match_service::recompute_ratings` -/

/-- The per-user reset of `recompute_ratings`: rating back to the baseline,
counters to zero. -/
def reset_user (u : user) : user :=
  { u with point := u.base_point, wins := 0, games := 0 }

/-- Replay a list of match records in order, stopping at the first failure
and keeping the partially replayed store. -/
def replay (E pA pNA : ℚ → ℚ) : store → List match_record →
    store × Except String Unit
  | st, [] => (st, .ok ())
  | st, mr :: rest =>
      match apply_match_effect E pA pNA st mr.teams mr.winning_teams with
      | (st', .ok _) => replay E pA pNA st' rest
      | (st', .error e) => (st', .error e)

/-- `match_service::recompute_ratings`: reset every user, then replay the
history stably sorted by timestamp. -/
def recompute_ratings (E pA pNA : ℚ → ℚ) (st : store)
    (history : List match_record) : store × Except String Unit :=
  let st0 := st.map (fun kv => (kv.1, reset_user kv.2))
  let sorted := history.insertionSort (fun a b => a.when ≤ b.when)
  replay E pA pNA st0 sorted

/-! ## `team_service::form_teams` -/

/-- The abstraction of the `std::mt19937_64` stream as consumed by
`form_teams`: the initial player shuffle, a stream of
`uniform_int_distribution(0,1)` coin flips indexed by a draw counter, and the
shuffle applied to the list of empty teams inside the search. -/
structure rand_oracle where
  shuffle_players : List user → List user
  coin : Nat → Bool
  shuffle_order : Nat → List Nat → List Nat

/-- The FNV offset basis `1469598103934665603`. -/
def fnv_offset : Nat := 1469598103934665603

/-- The FNV prime `1099511628211`. -/
def fnv_prime : Nat := 1099511628211

/-- Reduction of a `Nat` to the 64-bit value it would have as `uint64_t`. -/
def u64 (n : Nat) : Nat := n % 2 ^ 64

/-- `make_seed` of `form_teams`: FNV-1a over the sorted participant ids,
xored with an xorshift-mixed wall-clock sample. -/
def make_seed (ids : List Nat) (time : Nat) : Nat :=
  let sorted := ids.insertionSort (· ≤ ·)
  let h := sorted.foldl (fun h x => u64 ((h ^^^ x) * fnv_prime)) fnv_offset
  let t := u64 time
  let t := u64 (t ^^^ (t >>> 33))
  let t := u64 (t * 0xff51afd7ed558ccd)
  let t := u64 (t ^^^ (t >>> 33))
  let t := u64 (t * 0xc4ceb9fe1a85ec53)
  let t := u64 (t ^^^ (t >>> 33))
  h ^^^ t

/-- `spread_of`: max minus min of the per-team totals, `0` for an empty
vector. -/
def spread_of : List ℚ → ℚ
  | [] => 0
  | x :: xs => xs.foldl qmax x - xs.foldl qmin x

/-- The `1e-12` tolerance of the branch-and-bound comparisons. -/
def eps : ℚ := 1 / 1000000000000

/-- `suf[k]` — the total rating of the still-unplaced tail `players[k..]`. -/
def suffix_sum (ps : List user) (k : Nat) : ℚ :=
  ((ps.drop k).map user.point).sum

/-- One greedy placement (`form_teams`, upper-bound block): try every team
`t < T`, cost = spread of the totals with the player added to `t`; keep the
strictly cheapest, breaking exact ties by a coin flip.  `none` plays the role
of the initial `infinity` cost.  Returns the chosen team and the advanced
coin counter. -/
def greedy_choose (T : Nat) (totals : List ℚ) (p : ℚ) (o : rand_oracle)
    (ctr : Nat) : Nat × Nat :=
  let r := (List.range T).foldl
    (fun (acc : Nat × Option ℚ × Nat) t =>
      let cost := spread_of (totals.set t (totals.getD t 0 + p))
      match acc.2.1 with
      | none => (t, some cost, acc.2.2)
      | some b =>
          if cost < b then (t, some cost, acc.2.2)
          else if cost = b then
            if o.coin acc.2.2 then (t, some b, acc.2.2 + 1)
            else (acc.1, some b, acc.2.2 + 1)
          else acc)
    (0, none, ctr)
  (r.1, r.2.2)

/-- The greedy upper-bound pass of `form_teams`: place the sorted players one
by one, returning the assignment (player order to team index), the final
totals and the coin counter. -/
def greedy_assign (T : Nat) (ps : List user) (o : rand_oracle) :
    List Int × List ℚ × Nat :=
  ps.foldl
    (fun (acc : List Int × List ℚ × Nat) u =>
      let r := greedy_choose T acc.2.1 u.point o acc.2.2
      (acc.1 ++ [(r.1 : Int)], acc.2.1.set r.1 (acc.2.1.getD r.1 0 + u.point), r.2))
    ([], List.replicate T 0, 0)

/-- The `lower_bound` of the search:
`max(max(totals) − mean, mean − min(totals), max(0, max − (min + rest)))`. -/
def lower_bound (totals : List ℚ) (target_mean rest : ℚ) : ℚ :=
  match totals with
  | [] => 0
  | x :: xs =>
      let mx := xs.foldl qmax x
      let mn := xs.foldl qmin x
      qmax (qmax (mx - target_mean) (target_mean - mn)) (qmax 0 (mx - (mn + rest)))

/-- `must_fill_empty`: the number of unplaced players equals the (positive)
number of still-empty teams. -/
def must_fill_empty (counts : List Nat) (left : Nat) : Bool :=
  let empty := (counts.filter (· = 0)).length
  left = empty ∧ 0 < empty

/-- The comparator of `team_order`: ascending by total, then by count. -/
def team_lt (totals : List ℚ) (counts : List Nat) (a b : Nat) : Bool :=
  if totals.getD a 0 ≠ totals.getD b 0 then decide (totals.getD a 0 < totals.getD b 0)
  else decide (counts.getD a 0 < counts.getD b 0)

/-- `team_order`: the team indices stably sorted by `team_lt`. -/
def team_order (T : Nat) (totals : List ℚ) (counts : List Nat) : List Nat :=
  (List.range T).insertionSort (fun a b => ¬ team_lt totals counts b a)

/-- The depth-first search of `form_teams`, with the explicit recursion depth
`rem = P − k` (number of players still to place).  The accumulator carries
the coin counter, the best spread and the best assignment; `totals`, `counts`
and `cur` are the backtracked per-branch state. -/
def dfs (o : rand_oracle) (ps : List user) (P T : Nat) (target_mean : ℚ) :
    Nat → List ℚ → List Nat → List Int → Nat × ℚ × List Int → Nat × ℚ × List Int
  | 0, totals, counts, cur, acc =>
      if counts.any (· = 0) then acc
      else
        let sp := spread_of totals
        if sp < acc.2.1 - eps then (acc.1, sp, cur)
        else if qabs (sp - acc.2.1) ≤ eps then
          if o.coin acc.1 then (acc.1 + 1, acc.2.1, cur)
          else (acc.1 + 1, acc.2.1, acc.2.2)
        else acc
  | rem + 1, totals, counts, cur, acc =>
      let k := P - (rem + 1)
      if lower_bound totals target_mean (suffix_sum ps k) ≥ acc.2.1 - eps then acc
      else
        let oc :=
          if must_fill_empty counts (rem + 1) then
            (o.shuffle_order acc.1 ((List.range T).filter (fun t => counts.getD t 0 = 0)),
             acc.1 + 1)
          else (team_order T totals counts, acc.1)
        let p := (ps.getD k default).point
        oc.1.foldl
          (fun acc2 t =>
            dfs o ps P T target_mean rem (totals.set t (totals.getD t 0 + p))
              (counts.set t (counts.getD t 0 + 1)) (cur.set k (t : Int))
              (oc.2, acc2.2.1, acc2.2.2))
          (oc.2, acc.2.1, acc.2.2)

/-- The fallback of the materialization loop: the first team index with the
strictly smallest current total. -/
def argmin_total (T : Nat) (ts : List team) : Nat :=
  ((List.range T).foldl
    (fun (acc : Nat × Option ℚ) j =>
      let s := (ts.getD j ⟨[]⟩).total_point
      match acc.2 with
      | none => (j, some s)
      | some b => if s < b then (j, some s) else acc)
    (0, none)).1

/-- Materialize the best assignment into `T` teams (`form_teams`, result
block): out-of-range assignments fall back to the team with the lowest
total. -/
def materialize (T : Nat) (ps : List user) (asg : List Int) : List team :=
  ((ps.zip asg).foldl
    (fun ts pa =>
      let t :=
        if pa.2 < 0 ∨ (T : Int) ≤ pa.2 then argmin_total T ts else pa.2.toNat
      ts.set t ⟨(ts.getD t ⟨[]⟩).members ++ [pa.1]⟩)
    (List.replicate T ⟨[]⟩))

/-- The body of `form_teams` after the sanity checks, for a fixed oracle:
shuffle, stable-sort descending by rating, greedy upper bound, depth-first
search, materialization. -/
def form_teams_core (participants : List user) (cfg : formation_config)
    (o : rand_oracle) : List team :=
  let T := cfg.num_teams.toNat
  let players :=
    (o.shuffle_players participants).insertionSort (fun a b => b.point ≤ a.point)
  let P := players.length
  let target_mean := suffix_sum players 0 / (T : ℚ)
  let g := greedy_assign T players o
  let best0 := spread_of g.2.1
  let r := dfs o players P T target_mean P (List.replicate T 0)
    (List.replicate T 0) (List.replicate P (-1)) (g.2.2, best0, g.1)
  materialize T players r.2.2

/-- `team_service::form_teams`: the sanity checks, then the seeded search.
The seed is the configured one when nonzero, otherwise the id-hash/time mix
of `make_seed`; the abstract `oracle_of` turns the seed into the random
stream. -/
def form_teams (participants : List user) (cfg : formation_config)
    (oracle_of : Nat → rand_oracle) (time : Nat) : Except String (List team) :=
  if cfg.num_teams < 1 then .error teams_must_positive
  else if participants.length < cfg.num_teams.toNat then .error users_not_enough
  else
    .ok (form_teams_core participants cfg
      (oracle_of
        (if cfg.seed ≠ 0 then cfg.seed
         else make_seed (participants.map user.id) time)))

/-! ## Counting helpers for the replay properties -/

/-- All member ids of a match's teams, in order. -/
def member_ids (teams : List team) : List Nat :=
  (teams.map (fun t => t.members.map user.id)).flatten

/-- Number of member slots of `teams` holding id `i`. -/
def occ_count (teams : List team) (i : Nat) : Nat :=
  (member_ids teams).count i

/-- Well-formedness of a committed match record (the data-model invariant
that its teams form a set partition): no id appears in two member slots. -/
def record_wf (mr : match_record) : Prop :=
  (member_ids mr.teams).Nodup

/-- `i` appears as a team member of record `mr`. -/
def occurs_in (i : Nat) (mr : match_record) : Prop :=
  i ∈ member_ids mr.teams

/-- Some team of `mr` contains `i` and has its index among the record's
winning teams. -/
def wins_in (i : Nat) (mr : match_record) : Prop :=
  ∃ ti < mr.teams.length,
    ((ti : Int) ∈ mr.winning_teams) ∧
    i ∈ (mr.teams.getD ti ⟨[]⟩).members.map user.id

instance (mr : match_record) : Decidable (record_wf mr) := by
  unfold record_wf; infer_instance

instance (i : Nat) (mr : match_record) : Decidable (occurs_in i mr) := by
  unfold occurs_in; infer_instance

instance (i : Nat) (mr : match_record) : Decidable (wins_in i mr) := by
  unfold wins_in; infer_instance

/-- Number of records of `h` in which `i` appears as a team member. -/
def games_count (i : Nat) (h : List match_record) : Nat :=
  h.countP (fun mr => decide (occurs_in i mr))

/-- Number of records of `h` in which the team of `i` is a winning team. -/
def wins_count (i : Nat) (h : List match_record) : Nat :=
  h.countP (fun mr => decide (wins_in i mr))

/-! ## Concrete instances used by the witnesses and counterexamples -/

/-- A concrete random oracle: identity shuffle and an all-zeros coin stream
(one of the possible behaviours of the seeded `mt19937_64` pipeline). -/
def triv_oracle : rand_oracle := ⟨id, fun _ => false, fun _ l => l⟩

/-- A concrete oracle family for instantiating the abstract seed-to-stream
parameter. -/
def oracle_of0 : Nat → rand_oracle := fun _ => triv_oracle

/-- A concrete stand-in for the abstract power curves (`r ↦ 1` is positive
everywhere, as the real curves are). -/
def one_fun : ℚ → ℚ := fun _ => 1

/-- A concrete stand-in for `10^x` satisfying `elo_like` below. -/
def exp_ten0 : ℚ → ℚ := fun x => if 0 < x then 2 else if x = 0 then 1 else 1/2

/-- The properties of `x ↦ 10^x` that the claims about the Elo curve rely
on: positivity, value `1` at `0`, and values `> 1` on positive inputs. -/
def elo_like (E : ℚ → ℚ) : Prop :=
  (∀ x, 0 < E x) ∧ E 0 = 1 ∧ (∀ x, 0 < x → 1 < E x)

/-- Zero-rated participant (reachable via `upsert_user` with point `0`). -/
def z1 : user := ⟨1, "a", 0, 0, 0, 0⟩

/-- Zero-rated participant. -/
def z2 : user := ⟨2, "b", 0, 0, 0, 0⟩

/-- Participant of rating 8 for the optimality counterexample. -/
def p8 : user := ⟨1, "a", 8, 8, 0, 0⟩

/-- Participant of rating 7. -/
def p7 : user := ⟨2, "b", 7, 7, 0, 0⟩

/-- Participant of rating 6. -/
def p6 : user := ⟨3, "c", 6, 6, 0, 0⟩

/-- Participant of rating 5. -/
def p5 : user := ⟨4, "d", 5, 5, 0, 0⟩

/-- Participant of rating 4. -/
def p4 : user := ⟨5, "e", 4, 4, 0, 0⟩

/-- Participant of rating 3 (id 1) for the atomicity counterexample. -/
def uA : user := ⟨1, "A", 3, 3, 0, 0⟩

/-- Participant of rating 5 (id 2). -/
def uB : user := ⟨2, "B", 5, 5, 0, 0⟩

/-- Store holding `uA` and `uB`. -/
def stA : store := [(1, uA), (2, uB)]

/-- Participant of rating 400 (id 1) for the full-tie counterexample. -/
def cA : user := ⟨1, "a", 400, 400, 0, 0⟩

/-- Participant of rating 0 (id 2). -/
def cB : user := ⟨2, "b", 0, 0, 0, 0⟩

/-- Store holding `cA` and `cB`. -/
def stC : store := [(1, cA), (2, cB)]

/-- Participant of rating 10 (id 1) for the replay witness. -/
def w1 : user := ⟨1, "a", 10, 10, 0, 0⟩

/-- Participant of rating 5 (id 2). -/
def w2 : user := ⟨2, "b", 5, 5, 0, 0⟩

/-- Store holding `w1` and `w2`. -/
def stW : store := [(1, w1), (2, w2)]

/-- A one-match history: `w1`'s team beats `w2`'s. -/
def mrW : match_record := ⟨0, [⟨[w1]⟩, ⟨[w2]⟩], [0]⟩

/-- The expected state of participant 1 after replaying `[mrW]` from `stW`:
rating `10 + 2`, one game, one win. -/
def uW : user := ⟨1, "a", 12, 10, 1, 1⟩

/-- A member snapshot whose id `99` is absent from every store used here. -/
def gU : user := ⟨99, "g", 7, 7, 0, 0⟩

/-- A participant whose current state differs from its replay baseline:
rating `7` over baseline `5`, 2 wins in 3 games. -/
def uR : user := ⟨1, "a", 7, 5, 2, 3⟩

/-- Store holding `uR`. -/
def stR : store := [(1, uR)]

/-- A degenerate history record with an empty team list, as the caller-owned
Match History can contain (neither `add_match` nor the JSON loader validates
the team list); replaying it fails `apply_match_effect`'s first check. -/
def mrE : match_record := ⟨0, [], []⟩

end MesBot

-- `Rat.add` and friends are `@[irreducible]` in this toolchain, which stops
-- `decide`/`rfl` from evaluating the embedded programs on concrete inputs;
-- restore reducibility locally for the theorems below.
set_option allowUnsafeReducibility true
attribute [local semireducible] Rat.add Rat.sub Rat.mul Rat.div Rat.inv Rat.neg

namespace MesBot

/-! ## Store lemmas -/

theorem store_find_upsert_self (st : store) (i : Nat) (u : user) :
    store_find (store_upsert st i u) i = some u := by
  induction st with
  | nil => simp [store_upsert, store_find]
  | cons kv rest ih =>
      by_cases h : kv.1 = i
      · simp [store_upsert, store_find, h]
      · simpa [store_upsert, store_find, h] using ih

theorem store_find_set_ne (st : store) (i j : Nat) (u : user) (h : j ≠ i) :
    store_find (store_set st i u) j = store_find st j := by
  induction st with
  | nil => simp [store_set, store_find]
  | cons kv rest ih =>
      by_cases hk : kv.1 = i
      · have : ¬ i = j := fun hij => h hij.symm
        simp [store_set, store_find, hk, this]
      · by_cases hj : kv.1 = j <;>
          simp [store_set, store_find, hk, hj, ih, fun hji : j = i => h hji]

theorem store_find_set_self (st : store) (i : Nat) (u : user) :
    store_find (store_set st i u) i = (store_find st i).map (fun _ => u) := by
  induction st with
  | nil => simp [store_set, store_find]
  | cons kv rest ih =>
      by_cases hk : kv.1 = i
      · simp [store_set, store_find, hk]
      · simp [store_set, store_find, hk, ih]

theorem store_find_set (st : store) (i j : Nat) (u : user) :
    store_find (store_set st i u) j =
      if j = i then (store_find st i).map (fun _ => u) else store_find st j := by
  by_cases h : j = i
  · subst h; simp [store_find_set_self]
  · simp [h, store_find_set_ne st i j u h]

theorem tm_ne_une : teams_must_positive ≠ users_not_enough := by decide

/-! ## Claim theorems: partitioner -/

/-- C1 (code bug): the claim says that for `N ≥ T ≥ 1` every returned team
has at least one member.  On two participants of rating `0` with
`team_count = 2`, the greedy upper-bound pass can place both players on the
same team (every cost is `0`, so only coin flips decide), the root of the
search is then pruned (`lower_bound = 0 ≥ best − 1e-12`), and the greedy
assignment is materialized as-is: `form_teams` succeeds but returns a second
team with no members. -/
theorem form_teams_returns_empty_team :
    form_teams [z1, z2] ⟨2, false, 1⟩ oracle_of0 0 =
      .ok [⟨[z1, z2]⟩, ⟨[]⟩] := by decide

/-- C3 (code bug): the claim says the returned spread is the global minimum.
On ratings `8,7,6,5,4` with `team_count = 2` the greedy bound yields the
assignment `{8,5,4} / {7,6}` of spread `4`; at the root of the search the
`lower_bound` term `target_mean − min(totals) = 15 − 0` is not a valid lower
bound (team totals only grow), yet it prunes the entire search since
`15 ≥ 4 − 1e-12`.  The partition `{8,7} / {6,5,4}` of the same participants
into two non-empty teams has spread `0`. -/
theorem form_teams_not_optimal :
    form_teams [p8, p7, p6, p5, p4] ⟨2, false, 1⟩ oracle_of0 0 =
      .ok [⟨[p8, p5, p4]⟩, ⟨[p7, p6]⟩] ∧
    spread_of [team.total_point ⟨[p8, p5, p4]⟩, team.total_point ⟨[p7, p6]⟩] = 4 ∧
    spread_of [team.total_point ⟨[p8, p7]⟩, team.total_point ⟨[p6, p5, p4]⟩] = 0 :=
  ⟨by decide, by decide, by decide⟩

/-- C4 (counterexample): the claim says an empty participant list fails with
a distinct `EmptyRoster` error.  `form_teams` has no such check: the empty
list falls into the same `users_not_enough` (`InsufficientParticipants`)
error that a non-empty but too-small list produces. -/
theorem form_teams_no_empty_roster_error :
    form_teams [] ⟨1, false, 1⟩ oracle_of0 0 = .error users_not_enough ∧
    form_teams [z1] ⟨2, false, 1⟩ oracle_of0 0 = .error users_not_enough :=
  ⟨rfl, rfl⟩

/-- C4 (amended): `form_teams` fails with `teams_must_positive`
(`InvalidArgument`) exactly when `T < 1`; fails with `users_not_enough`
(`InsufficientParticipants`) exactly when `T ≥ 1` and the participant list —
empty included — has fewer than `T` entries; succeeds in all other cases. -/
theorem form_teams_error_spec (ps : List user) (cfg : formation_config)
    (oracle_of : Nat → rand_oracle) (time : Nat) :
    (form_teams ps cfg oracle_of time = .error teams_must_positive ↔
      cfg.num_teams < 1) ∧
    (form_teams ps cfg oracle_of time = .error users_not_enough ↔
      1 ≤ cfg.num_teams ∧ ps.length < cfg.num_teams.toNat) ∧
    ((∃ ts, form_teams ps cfg oracle_of time = .ok ts) ↔
      1 ≤ cfg.num_teams ∧ cfg.num_teams.toNat ≤ ps.length) := by
  by_cases h1 : cfg.num_teams < 1
  · have hf : form_teams ps cfg oracle_of time = .error teams_must_positive := by
      simp only [form_teams, if_pos h1]
    rw [hf]
    refine ⟨⟨fun _ => h1, fun _ => rfl⟩, ?_, ?_⟩
    · constructor
      · intro he; exact absurd (Except.error.inj he) tm_ne_une
      · intro hc; omega
    · constructor
      · rintro ⟨ts, hts⟩; cases hts
      · rintro ⟨hge, -⟩; omega
  · have h1' : 1 ≤ cfg.num_teams := by omega
    by_cases h2 : ps.length < cfg.num_teams.toNat
    · have hf : form_teams ps cfg oracle_of time = .error users_not_enough := by
        simp only [form_teams, if_neg h1, if_pos h2]
      rw [hf]
      refine ⟨?_, ⟨fun _ => ⟨h1', h2⟩, fun _ => rfl⟩, ?_⟩
      · constructor
        · intro he; exact absurd (Except.error.inj he).symm tm_ne_une
        · intro hc; exact absurd hc h1
      · constructor
        · rintro ⟨ts, hts⟩; cases hts
        · rintro ⟨-, hle⟩; omega
    · have hf : form_teams ps cfg oracle_of time =
          .ok (form_teams_core ps cfg (oracle_of
            (if cfg.seed ≠ 0 then cfg.seed else make_seed (ps.map user.id) time))) := by
        simp only [form_teams, if_neg h1, if_neg h2]
      rw [hf]
      refine ⟨⟨(fun he => nomatch he), fun hc => absurd hc h1⟩,
        ⟨(fun he => nomatch he), fun hc => absurd hc.2 h2⟩,
        ⟨fun _ => ⟨h1', Nat.not_lt.mp h2⟩, fun _ => ⟨_, rfl⟩⟩⟩

/-- C8 (confirmed): with an explicitly supplied (nonzero) seed,
`form_teams` is a function of the participants and the configuration alone —
the wall-clock sample that feeds the seed mix when the seed is omitted
(`seed = 0`, the header's "use random seed" encoding) has no influence, so
two calls on the same input give identical output. -/
theorem form_teams_seed_deterministic (oracle_of : Nat → rand_oracle)
    (ps : List user) (cfg : formation_config) (h : cfg.seed ≠ 0) (t1 t2 : Nat) :
    form_teams ps cfg oracle_of t1 = form_teams ps cfg oracle_of t2 := by
  simp only [form_teams, if_pos h]

/-- Witness for C8 at a concrete nonzero seed. -/
theorem form_teams_seed_deterministic_witness :
    (⟨2, false, 7⟩ : formation_config).seed ≠ 0 ∧
    form_teams [z1, z2] ⟨2, false, 7⟩ oracle_of0 0 =
      form_teams [z1, z2] ⟨2, false, 7⟩ oracle_of0 1 :=
  ⟨by decide, form_teams_seed_deterministic oracle_of0 [z1, z2] ⟨2, false, 7⟩ (by decide) 0 1⟩

/-! ## Claim theorems: rating engine -/

/-- C9 (confirmed): `upsert_user` with `point ≥ 0` succeeds and stores the
participant with both `point` and `base_point` equal to the given value (so
an administrative rating update also resets the replay anchor); with
`point < 0` it fails with `point_must_positive` and returns the store
unchanged. -/
theorem upsert_user_spec (st : store) (i : Nat) (name : String) (p : ℚ) :
    (0 ≤ p →
      (upsert_user st i name p).2 = .ok () ∧
      ∃ u, store_find (upsert_user st i name p).1 i = some u ∧
        u.point = p ∧ u.base_point = p) ∧
    (p < 0 → upsert_user st i name p = (st, .error point_must_positive)) := by
  constructor
  · intro hp
    have hnot : ¬ p < 0 := not_lt.mpr hp
    refine ⟨by simp [upsert_user, hnot], ?_⟩
    refine ⟨{ (store_find st i).getD default with
              id := i, username := name, point := p, base_point := p }, ?_, rfl, rfl⟩
    simp [upsert_user, hnot, store_find_upsert_self]
  · intro hp
    simp [upsert_user, hp]

/-- Witness for C9 at `p = 3 ≥ 0`. -/
theorem upsert_user_spec_witness :
    (0 : ℚ) ≤ 3 ∧
    ((upsert_user [] 7 "alice" 3).2 = .ok () ∧
      ∃ u, store_find (upsert_user [] 7 "alice" 3).1 7 = some u ∧
        u.point = 3 ∧ u.base_point = 3) :=
  ⟨by norm_num, (upsert_user_spec [] 7 "alice" 3).1 (by norm_num)⟩

/-- C2 (counterexample): the claim says `recompute_all_from_history` either
fully succeeds or leaves the affected state unchanged.  It resets every
participant to the baseline before replaying; when a replayed record fails
`apply_match_effect`'s validation — here a history record with an empty
team list, which neither `add_match` nor the JSON loader rules out — the
error is returned with the reset already applied: participant 1 comes back
with rating `5` instead of `7` and zeroed counters. -/
theorem recompute_ratings_not_atomic :
    (recompute_ratings one_fun one_fun one_fun stR [mrE]).2 =
      .error teams_must_positive ∧
    (recompute_ratings one_fun one_fun one_fun stR [mrE]).1 ≠ stR :=
  ⟨by decide, by decide⟩

/-! ## Zero-sum of the pairwise deltas -/

theorem sum_set_getD (v : List ℚ) (i : Nat) (hi : i < v.length) (a : ℚ) :
    (v.set i (v.getD i 0 + a)).sum = v.sum + a := by
  induction v generalizing i with
  | nil => simp at hi
  | cons x xs ih =>
      cases i with
      | zero => simp [List.set]; ring
      | succ n =>
          have hn : n < xs.length := by simpa using hi
          simp only [List.set_cons_succ, List.getD_cons_succ, List.sum_cons, ih n hn]
          ring

theorem getD_set_ne (v : List ℚ) (i j : Nat) (u : ℚ) (h : i ≠ j) :
    (v.set i u).getD j 0 = v.getD j 0 := by
  induction v generalizing i j with
  | nil => simp [List.set]
  | cons x xs ih =>
      cases i with
      | zero =>
          cases j with
          | zero => exact absurd rfl h
          | succ m => simp [List.set]
      | succ n =>
          cases j with
          | zero => simp [List.set]
          | succ m =>
              have hnm : n ≠ m := fun he => h (by simp [he])
              simpa [List.set, List.getD] using ih n m hnm

theorem actual_pair_sum (w : List Int) (i j : Nat) :
    (actual_pair w i j).1 + (actual_pair w i j).2 = 1 := by
  simp only [actual_pair]
  split_ifs <;> norm_num

theorem pair_update_length (E : ℚ → ℚ) (rs : List ℚ) (w : List Int)
    (d : List ℚ) (i j : Nat) : (pair_update E rs w d i j).length = d.length := by
  simp [pair_update]

theorem pair_update_sum (E : ℚ → ℚ) (rs : List ℚ) (w : List Int) (d : List ℚ)
    (i j : Nat) (hi : i < d.length) (hj : j < d.length) (_hij : i ≠ j) :
    (pair_update E rs w d i j).sum = d.sum := by
  have hj' : j < (d.set i (d.getD i 0 +
      k_factor * ((actual_pair w i j).1 -
        expected_vs E (rs.getD i 0) (rs.getD j 0)))).length := by
    simpa using hj
  simp only [pair_update]
  rw [sum_set_getD _ j hj', sum_set_getD d i hi]
  have hs := actual_pair_sum w i j
  simp only [k_factor]
  linarith

theorem pair_fold_inner (E : ℚ → ℚ) (rs : List ℚ) (w : List Int) (i : Nat)
    (l : List Nat) (d : List ℚ) (hl : ∀ j ∈ l, j < d.length) :
    (l.foldl (fun d j => if i < j then pair_update E rs w d i j else d) d).length
        = d.length ∧
    (l.foldl (fun d j => if i < j then pair_update E rs w d i j else d) d).sum
        = d.sum := by
  induction l generalizing d with
  | nil => exact ⟨rfl, rfl⟩
  | cons j rest ih =>
      simp only [List.foldl_cons]
      have hj : j < d.length := hl j (by simp)
      by_cases hij : i < j
      · rw [if_pos hij]
        have hlen := pair_update_length E rs w d i j
        have hsum := pair_update_sum E rs w d i j (lt_trans hij hj) hj (Nat.ne_of_lt hij)
        obtain ⟨l1, s1⟩ := ih (pair_update E rs w d i j)
          (fun x hx => hlen ▸ hl x (List.mem_cons_of_mem _ hx))
        exact ⟨l1.trans hlen, s1.trans hsum⟩
      · rw [if_neg hij]
        exact ih d (fun x hx => hl x (List.mem_cons_of_mem _ hx))

theorem pair_fold_outer (E : ℚ → ℚ) (rs : List ℚ) (w : List Int)
    (l : List Nat) (d : List ℚ) (hd : d.length = rs.length) :
    ((l.foldl
        (fun d i => (List.range rs.length).foldl
          (fun d j => if i < j then pair_update E rs w d i j else d) d) d).sum
      = d.sum) := by
  induction l generalizing d with
  | nil => rfl
  | cons i rest ih =>
      simp only [List.foldl_cons]
      obtain ⟨l1, s1⟩ := pair_fold_inner E rs w i (List.range rs.length) d
        (fun j hj => by rw [hd]; exact List.mem_range.mp hj)
      rw [ih _ (l1.trans hd), s1]

theorem pair_deltas_sum (E : ℚ → ℚ) (rs : List ℚ) (w : List Int) :
    (pair_deltas E rs w).sum = 0 := by
  unfold pair_deltas
  rw [pair_fold_outer E rs w (List.range rs.length) (List.replicate rs.length 0)
    (by simp)]
  simp

/-- C5 (confirmed): the per-team deltas of `apply_match_effect` sum to zero
exactly — each pairwise update adds `K⬝(Si − Ei)` and `K⬝(Sj − (1 − Ei))`
where the actual scores satisfy `Si + Sj = 1`, so every pair contributes
zero, for every team list, winner list, store and every Elo curve `E`. -/
theorem apply_match_deltas_zero_sum (E : ℚ → ℚ) (st : store)
    (teams : List team) (winners : List Int) :
    (pair_deltas E (teams.map (team_sum st)) winners).sum = 0 :=
  pair_deltas_sum E (teams.map (team_sum st)) winners

/-! ## Full-tie behaviour -/

theorem set_getD_self (v : List ℚ) (i : Nat) : v.set i (v[i]?.getD 0) = v := by
  induction v generalizing i with
  | nil => simp
  | cons x xs ih =>
      cases i with
      | zero => simp [List.set]
      | succ n => simp [List.set, ih n]

theorem expected_vs_self (E : ℚ → ℚ) (hE : E 0 = 1) (R : ℚ) :
    expected_vs E R R = 1/2 := by
  simp [expected_vs, hE]
  norm_num

theorem actual_pair_full_tie (w : List Int) (i j : Nat)
    (hi : (i : Int) ∈ w) (hj : (j : Int) ∈ w) :
    actual_pair w i j = (1/2, 1/2) := by
  simp [actual_pair, hi, hj]

theorem pair_update_id (E : ℚ → ℚ) (rs : List ℚ) (w : List Int) (d : List ℚ)
    (i j : Nat)
    (hEi : expected_vs E (rs.getD i 0) (rs.getD j 0) = 1/2)
    (hs : actual_pair w i j = (1/2, 1/2)) :
    pair_update E rs w d i j = d := by
  simp only [pair_update, hEi, hs]
  norm_num [k_factor]
  rw [set_getD_self, set_getD_self]

theorem pair_fold_inner_id (E : ℚ → ℚ) (rs : List ℚ) (w : List Int) (i : Nat)
    (l : List Nat) (d : List ℚ)
    (h : ∀ j ∈ l, i < j → pair_update E rs w d i j = d) :
    l.foldl (fun d j => if i < j then pair_update E rs w d i j else d) d = d := by
  induction l with
  | nil => rfl
  | cons j rest ih =>
      simp only [List.foldl_cons]
      by_cases hij : i < j
      · rw [if_pos hij, h j (by simp) hij]
        exact ih (fun x hx => h x (List.mem_cons_of_mem _ hx))
      · rw [if_neg hij]
        exact ih (fun x hx => h x (List.mem_cons_of_mem _ hx))

theorem getD_eq_of_all_eq (rs : List ℚ) (R : ℚ) (hR : ∀ r ∈ rs, r = R)
    (i : Nat) (hi : i < rs.length) : rs.getD i 0 = R := by
  rw [List.getD_eq_getElem?_getD, List.getElem?_eq_getElem hi]
  exact hR _ (List.getElem_mem hi)

theorem pair_deltas_const_full_tie (E : ℚ → ℚ) (hE : E 0 = 1) (rs : List ℚ)
    (w : List Int) (R : ℚ) (hR : ∀ r ∈ rs, r = R)
    (hw : ∀ i, i < rs.length → (i : Int) ∈ w) :
    pair_deltas E rs w = List.replicate rs.length 0 := by
  unfold pair_deltas
  have houter : ∀ (l : List Nat), (∀ i ∈ l, i < rs.length) →
      l.foldl
        (fun d i => (List.range rs.length).foldl
          (fun d j => if i < j then pair_update E rs w d i j else d) d)
        (List.replicate rs.length 0) = List.replicate rs.length 0 := by
    intro l
    induction l with
    | nil => intro _; rfl
    | cons i rest ih =>
        intro hmem
        simp only [List.foldl_cons]
        rw [pair_fold_inner_id]
        · exact ih (fun x hx => hmem x (List.mem_cons_of_mem _ hx))
        · intro j hj _
          have hjN : j < rs.length := List.mem_range.mp hj
          have hiN : i < rs.length := hmem i (by simp)
          refine pair_update_id E rs w _ i j ?_ ?_
          · rw [getD_eq_of_all_eq rs R hR i hiN, getD_eq_of_all_eq rs R hR j hjN]
            exact expected_vs_self E hE R
          · exact actual_pair_full_tie w i j (hw i hiN) (hw j hjN)
  exact houter (List.range rs.length) (fun i hi => List.mem_range.mp hi)

theorem dist_teams_zero (pA pNA : ℚ → ℚ) (st : store)
    (l : List (team × ℚ × ℚ)) (h : ∀ x ∈ l, x.2.1 = 0) :
    dist_teams pA pNA st l = (st, .ok ()) := by
  induction l generalizing st with
  | nil => rfl
  | cons x rest ih =>
      obtain ⟨tm, td, ts⟩ := x
      have htd : td = 0 := h (tm, td, ts) (by simp)
      subst htd
      have hstep : dist_team pA pNA st tm 0 ts = (st, .ok ()) := by
        by_cases hm : tm.members = [] <;> simp [dist_team, hm]
      simp only [dist_teams, hstep]
      exact ih st (fun x hx => h x (List.mem_cons_of_mem _ hx))

theorem store_set_preserves_point (s : store) (k : Nat) (u u' : user)
    (hu : store_find s k = some u) (hp : u'.point = u.point) (i : Nat) :
    (store_find (store_set s k u') i).map user.point =
      (store_find s i).map user.point := by
  rw [store_find_set]
  by_cases h : i = k
  · subst h; simp [hu, hp]
  · simp [h]

theorem counter_member_fold_points (ms : List user) (w : List Nat) :
    ∀ (s : store) (i : Nat),
      (store_find
        (ms.foldl
          (fun s m =>
            match store_find s m.id with
            | some u =>
                store_set s m.id
                  { u with games := u.games + 1,
                           wins := u.wins + (if w.contains m.id then 1 else 0) }
            | none => s) s) i).map user.point = (store_find s i).map user.point := by
  induction ms with
  | nil => intro s i; rfl
  | cons m rest ih =>
      intro s i
      simp only [List.foldl_cons]
      rcases hf : store_find s m.id with _ | u
      · simp only [hf]; exact ih s i
      · simp only [hf]
        rw [ih]
        exact store_set_preserves_point s m.id u
          { u with games := u.games + 1,
                   wins := u.wins + (if w.contains m.id then 1 else 0) } hf rfl i

theorem bump_counters_points (w : List Nat) (teams : List team) :
    ∀ (st : store) (i : Nat),
      (store_find (bump_counters w st teams) i).map user.point =
        (store_find st i).map user.point := by
  induction teams with
  | nil => intro st i; rfl
  | cons t rest ih =>
      intro st i
      unfold bump_counters
      simp only [List.foldl_cons]
      have := ih (t.members.foldl
        (fun s m =>
          match store_find s m.id with
          | some u =>
              store_set s m.id
                { u with games := u.games + 1,
                         wins := u.wins + (if w.contains m.id then 1 else 0) }
          | none => s) st) i
      unfold bump_counters at this
      rw [this]
      exact counter_member_fold_points t.members w st i

/-- C6 (counterexample): the claim says a full tie leaves every team's net
delta at `≈ 0` and ratings materially unchanged.  That holds only for teams
of equal strength: with team ratings `400` and `0`, any Elo curve with the
real curve's properties (`elo_like`) gives an expected score `> 1/2` to the
stronger team, so the tie produces nonzero deltas (`∓2/3` here) and changes
the ratings (`400 → 1198/3`). -/
theorem apply_match_effect_full_tie_cex :
    elo_like exp_ten0 ∧
    (∀ i : Nat, i < 2 → ((i : Int) ∈ [(0 : Int), 1])) ∧
    pair_deltas exp_ten0 ([⟨[cA]⟩, ⟨[cB]⟩].map (team_sum stC)) [0, 1] ≠
      List.replicate 2 0 ∧
    (store_find
        (apply_match_effect exp_ten0 one_fun one_fun stC [⟨[cA]⟩, ⟨[cB]⟩] [0, 1]).1
        1).map user.point ≠
      (store_find stC 1).map user.point := by
  refine ⟨⟨?_, ?_, ?_⟩, ?_, ?_, ?_⟩
  · intro x; simp only [exp_ten0]; split_ifs <;> norm_num
  · norm_num [exp_ten0]
  · intro x hx; simp [exp_ten0, hx]
  · intro i hi
    rcases i with _ | _ | n
    · simp
    · simp
    · omega
  · decide
  · decide

/-- C6 (amended): in a full tie (`winners` ⊇ all valid indices, and only
valid indices) every pairwise actual score is `(1/2, 1/2)`; if additionally
all teams have the same total rating, every team delta is exactly `0`,
`apply_match_effect` succeeds, and no participant's rating changes (only the
win/game counters move). -/
theorem apply_match_effect_full_tie (E pA pNA : ℚ → ℚ) (hE : E 0 = 1)
    (st : store) (teams : List team) (winners : List Int)
    (hne : teams ≠ [])
    (hfull : ∀ i, i < teams.length → (i : Int) ∈ winners)
    (hw : ∀ w ∈ winners, 0 ≤ w ∧ w < (teams.length : Int))
    (R : ℚ) (hR : ∀ t ∈ teams, team_sum st t = R) :
    (∀ i j, i < teams.length → j < teams.length →
      actual_pair winners i j = (1/2, 1/2)) ∧
    pair_deltas E (teams.map (team_sum st)) winners =
      List.replicate teams.length 0 ∧
    (apply_match_effect E pA pNA st teams winners).2 = .ok () ∧
    (∀ i,
      (store_find (apply_match_effect E pA pNA st teams winners).1 i).map
          user.point =
        (store_find st i).map user.point) := by
  have hR' : ∀ r ∈ teams.map (team_sum st), r = R := by
    intro r hr
    obtain ⟨t, ht, rfl⟩ := List.mem_map.mp hr
    exact hR t ht
  have hfull' : ∀ i, i < (teams.map (team_sum st)).length → (i : Int) ∈ winners := by
    simpa using hfull
  have hdeltas := pair_deltas_const_full_tie E hE (teams.map (team_sum st))
    winners R hR' hfull'
  have hany : ¬ (winners.any
      (fun w => decide (w < 0 ∨ (teams.length : Int) ≤ w)) = true) := by
    simp only [List.any_eq_true]
    rintro ⟨w, hmem, hc⟩
    rcases of_decide_eq_true hc with hlt | hle
    · exact absurd hlt (not_lt.mpr (hw w hmem).1)
    · exact absurd hle (not_le.mpr (hw w hmem).2)
  have hzip : ∀ x ∈ teams.zip
      ((pair_deltas E (teams.map (team_sum st)) winners).zip
        (teams.map (team_sum st))), x.2.1 = 0 := by
    intro x hx
    have h2 := (List.of_mem_zip hx).2
    have h21 := (List.of_mem_zip h2).1
    rw [hdeltas] at h21
    exact List.eq_of_mem_replicate h21
  have happly : apply_match_effect E pA pNA st teams winners =
      (bump_counters (winner_ids teams winners) st teams, .ok ()) := by
    simp only [apply_match_effect, if_neg hne, if_neg hany]
    rw [dist_teams_zero _ _ _ _ hzip]
  refine ⟨?_, by simpa using hdeltas, ?_, ?_⟩
  · intro i j hi hj
    exact actual_pair_full_tie winners i j (hfull i hi) (hfull j hj)
  · rw [happly]
  · intro i
    rw [happly]
    exact bump_counters_points (winner_ids teams winners) teams st i

/-- Witness for the full-tie theorem: one team, one winner index. -/
theorem apply_match_effect_full_tie_witness :
    (one_fun 0 = 1) ∧
    (([⟨[uA]⟩] : List team) ≠ []) ∧
    ((apply_match_effect one_fun one_fun one_fun stA [⟨[uA]⟩] [0]).2 = .ok () ∧
      ∀ i,
        (store_find (apply_match_effect one_fun one_fun one_fun stA [⟨[uA]⟩] [0]).1
            i).map user.point =
          (store_find stA i).map user.point) := by
  have h := apply_match_effect_full_tie one_fun one_fun one_fun rfl stA
    [⟨[uA]⟩] [0] (by simp)
    (by
      intro i hi
      simp only [List.length_cons, List.length_nil] at hi
      have h0 : i = 0 := Nat.lt_one_iff.mp hi
      subst h0
      simp)
    (by intro x hx; simp at hx; simp [hx])
    3 (by intro t ht; simp at ht; subst ht; decide)
  exact ⟨rfl, by simp, h.2.2.1, h.2.2.2⟩

/-! ## Win/game counters after a replay -/

theorem store_set_preserves_proj {β : Type} (f : user → β) (s : store) (k : Nat)
    (u u' : user) (hu : store_find s k = some u) (hf : f u' = f u) (i : Nat) :
    (store_find (store_set s k u') i).map f = (store_find s i).map f := by
  rw [store_find_set]
  by_cases h : i = k
  · subst h; simp [hu, hf]
  · simp [h]

theorem fold_point_only {α β : Type} (f : user → β)
    (hf : ∀ (u : user) (q : ℚ), f { u with point := q } = f u)
    (l : List α) (mid : α → Nat) (np : store → α → user → ℚ) :
    ∀ (s : store) (i : Nat),
      (store_find
        (l.foldl (fun s a =>
          match store_find s (mid a) with
          | some u => store_set s (mid a) { u with point := np s a u }
          | none => s) s) i).map f = (store_find s i).map f := by
  induction l with
  | nil => intro s i; rfl
  | cons a rest ih =>
      intro s i
      simp only [List.foldl_cons]
      rcases hfind : store_find s (mid a) with _ | u
      · simp only [hfind]; exact ih s i
      · simp only [hfind]
        rw [ih]
        exact store_set_preserves_proj f s (mid a) u _ hfind (hf u _) i

theorem dist_team_proj {β : Type} (f : user → β)
    (hf : ∀ (u : user) (q : ℚ), f { u with point := q } = f u)
    (pA pNA : ℚ → ℚ) (st : store) (tm : team) (td ts : ℚ) (i : Nat) :
    (store_find (dist_team pA pNA st tm td ts).1 i).map f =
      (store_find st i).map f := by
  by_cases h1 : tm.members = []
  · simp [dist_team, h1]
  by_cases h2 : td = 0
  · simp [dist_team, h1, h2]
  by_cases h3 : ts ≤ 0
  · simp only [dist_team, if_neg h1, if_neg h2, if_pos h3]
    exact fold_point_only f hf tm.members (fun m => m.id)
      (fun s m u => qmax k_min_power (u.point + td * (1 / (tm.members.length : ℚ)))) st i
  · simp only [dist_team, if_neg h1, if_neg h2, if_neg h3]
    by_cases h4 : (0 : ℚ) <
        (tm.members.map (member_weight pA pNA (decide (0 < td)) st)).sum
    · rw [if_neg (not_not_intro h4)]
      exact fold_point_only f hf
        (tm.members.zip (tm.members.map (member_weight pA pNA (decide (0 < td)) st)))
        (fun mw => mw.1.id)
        (fun s mw u => qmax k_min_power (u.point +
          td * (mw.2 / (tm.members.map (member_weight pA pNA (decide (0 < td)) st)).sum)))
        st i
    · rw [if_pos h4]

theorem dist_teams_proj {β : Type} (f : user → β)
    (hf : ∀ (u : user) (q : ℚ), f { u with point := q } = f u)
    (pA pNA : ℚ → ℚ) :
    ∀ (l : List (team × ℚ × ℚ)) (st : store) (i : Nat),
      (store_find (dist_teams pA pNA st l).1 i).map f = (store_find st i).map f := by
  intro l
  induction l with
  | nil => intro st i; rfl
  | cons x rest ih =>
      intro st i
      obtain ⟨tm, td, ts⟩ := x
      rcases hd : dist_team pA pNA st tm td ts with ⟨st', r⟩
      have hst' : ∀ j, (store_find st' j).map f = (store_find st j).map f := by
        intro j
        have h := dist_team_proj f hf pA pNA st tm td ts j
        rw [hd] at h
        exact h
      simp only [dist_teams, hd]
      cases r with
      | ok u => rw [ih st' i]; exact hst' i
      | error e => exact hst' i

theorem counter_member_fold_find (wids : List Nat) (ms : List user) :
    ∀ (s : store) (i : Nat),
      store_find
        (ms.foldl (fun s m =>
          match store_find s m.id with
          | some u =>
              store_set s m.id
                { u with games := u.games + 1,
                         wins := u.wins + (if wids.contains m.id then 1 else 0) }
          | none => s) s) i =
      (store_find s i).map (fun u =>
        { u with games := u.games + ms.countP (fun m => m.id == i),
                 wins := u.wins +
                   (if wids.contains i then ms.countP (fun m => m.id == i) else 0) }) := by
  induction ms with
  | nil =>
      intro s i
      rcases h : store_find s i with _ | u <;> simp [h]
  | cons m rest ih =>
      intro s i
      simp only [List.foldl_cons]
      by_cases hmi : m.id = i
      · subst hmi
        rcases hfind : store_find s m.id with _ | u
        · simp only [hfind]
          rw [ih s m.id, hfind]
          rfl
        · simp only [hfind]
          rw [ih, store_find_set_self, hfind]
          simp only [Option.map_some']
          cases u with
          | mk uid un pt bp w g =>
              by_cases hw : m.id ∈ wids <;>
                simp [hw, List.countP_cons] <;> omega
      · rcases hfind : store_find s m.id with _ | u
        · simp only [hfind]
          rw [ih]
          have : (m.id == i) = false := by simpa using hmi
          simp [List.countP_cons, this]
        · simp only [hfind]
          rw [ih, store_find_set_ne s m.id i _ (fun h => hmi h.symm)]
          have : (m.id == i) = false := by simpa using hmi
          simp [List.countP_cons, this]

theorem occ_count_cons (t : team) (rest : List team) (i : Nat) :
    occ_count (t :: rest) i =
      t.members.countP (fun m => m.id == i) + occ_count rest i := by
  simp only [occ_count, member_ids, List.map_cons, List.flatten_cons, List.count_append]
  congr 1
  show List.countP (fun x => x == i) (t.members.map user.id) = _
  rw [List.countP_map]
  rfl

theorem bump_counters_find (wids : List Nat) (teams : List team) :
    ∀ (st : store) (i : Nat),
      store_find (bump_counters wids st teams) i =
        (store_find st i).map (fun u =>
          { u with games := u.games + occ_count teams i,
                   wins := u.wins +
                     (if wids.contains i then occ_count teams i else 0) }) := by
  induction teams with
  | nil =>
      intro st i
      unfold bump_counters occ_count member_ids
      rcases h : store_find st i with _ | u <;> simp [h]
  | cons t rest ih =>
      intro st i
      show store_find (bump_counters wids
        (t.members.foldl (fun s m =>
          match store_find s m.id with
          | some u =>
              store_set s m.id
                { u with games := u.games + 1,
                         wins := u.wins + (if wids.contains m.id then 1 else 0) }
          | none => s) st) rest) i = _
      rw [ih, counter_member_fold_find]
      cases hfind : store_find st i with
      | none => rfl
      | some u =>
          simp only [Option.map_some', occ_count_cons]
          cases u with
          | mk uid un pt bp w g =>
              by_cases hw : i ∈ wids <;>
                simp [hw] <;> omega

theorem occ_count_wf (teams : List team) (i : Nat)
    (h : (member_ids teams).Nodup) :
    occ_count teams i = if i ∈ member_ids teams then 1 else 0 := by
  have hle := List.nodup_iff_count_le_one.mp h i
  by_cases hm : i ∈ member_ids teams
  · have hpos : 0 < (member_ids teams).count i := List.count_pos_iff.mpr hm
    rw [if_pos hm]
    unfold occ_count
    omega
  · rw [if_neg hm]
    exact List.count_eq_zero.mpr hm

theorem mem_winner_ids (teams : List team) (winners : List Int) (i : Nat) :
    i ∈ winner_ids teams winners ↔
      ∃ w ∈ winners, i ∈ (teams.getD w.toNat ⟨[]⟩).members.map user.id := by
  have aux : ∀ (l : List Int) (acc : List Nat),
      i ∈ l.foldl
          (fun acc w => acc ++ ((teams.getD w.toNat ⟨[]⟩).members.map user.id)) acc ↔
        i ∈ acc ∨ ∃ w ∈ l, i ∈ (teams.getD w.toNat ⟨[]⟩).members.map user.id := by
    intro l
    induction l with
    | nil => intro acc; simp
    | cons w rest ih =>
        intro acc
        rw [List.foldl_cons, ih, List.mem_append]
        constructor
        · rintro ((h | h) | ⟨x, hx, hpx⟩)
          · exact Or.inl h
          · exact Or.inr ⟨w, List.mem_cons_self _ _, h⟩
          · exact Or.inr ⟨x, List.mem_cons_of_mem _ hx, hpx⟩
        · rintro (h | ⟨x, hx, hpx⟩)
          · exact Or.inl (Or.inl h)
          · rcases List.mem_cons.mp hx with rfl | hx2
            · exact Or.inl (Or.inr hpx)
            · exact Or.inr ⟨x, hx2, hpx⟩
  have h := aux winners []
  unfold winner_ids
  rw [h]
  simp

theorem winner_wins_bridge (teams : List team) (winners : List Int) (i : Nat)
    (hwf : (member_ids teams).Nodup)
    (hval : ∀ w ∈ winners, 0 ≤ w ∧ w < (teams.length : Int)) :
    (if (winner_ids teams winners).contains i then occ_count teams i else 0) =
      (if (∃ ti < teams.length, ((ti : Int) ∈ winners) ∧
          i ∈ (teams.getD ti ⟨[]⟩).members.map user.id) then 1 else 0) := by
  by_cases hc : i ∈ winner_ids teams winners
  · have hc' : (winner_ids teams winners).contains i = true := by simpa using hc
    rw [if_pos hc']
    obtain ⟨w, hw, hmem⟩ := (mem_winner_ids teams winners i).mp hc
    have h0 := hval w hw
    have hti : w.toNat < teams.length := by omega
    have hwin : ((w.toNat : Int) ∈ winners) := by
      rw [Int.toNat_of_nonneg h0.1]
      exact hw
    have hex : ∃ ti < teams.length, ((ti : Int) ∈ winners) ∧
        i ∈ (teams.getD ti ⟨[]⟩).members.map user.id :=
      ⟨w.toNat, hti, hwin, hmem⟩
    rw [if_pos hex]
    have himem : i ∈ member_ids teams := by
      have hteam : teams.getD w.toNat ⟨[]⟩ ∈ teams := by
        rw [List.getD_eq_getElem?_getD, List.getElem?_eq_getElem hti]
        exact List.getElem_mem hti
      unfold member_ids
      rw [List.mem_flatten]
      exact ⟨(teams.getD w.toNat ⟨[]⟩).members.map user.id,
        List.mem_map.mpr ⟨_, hteam, rfl⟩, hmem⟩
    rw [occ_count_wf teams i hwf, if_pos himem]
  · have hc' : ¬ ((winner_ids teams winners).contains i = true) := by simpa using hc
    rw [if_neg hc']
    by_cases hex : ∃ ti < teams.length, ((ti : Int) ∈ winners) ∧
        i ∈ (teams.getD ti ⟨[]⟩).members.map user.id
    · obtain ⟨ti, _, hwin, hmem⟩ := hex
      exact absurd ((mem_winner_ids teams winners i).mpr
        ⟨(ti : Int), hwin, by simpa using hmem⟩) hc
    · rw [if_neg hex]

theorem apply_ok_shape (E pA pNA : ℚ → ℚ) (st : store) (teams : List team)
    (winners : List Int)
    (hok : (apply_match_effect E pA pNA st teams winners).2 = .ok ()) :
    teams ≠ [] ∧ (∀ w ∈ winners, 0 ≤ w ∧ w < (teams.length : Int)) ∧
    ∃ st1,
      (∀ j, (store_find st1 j).map (fun u => (u.wins, u.games)) =
        (store_find st j).map (fun u => (u.wins, u.games))) ∧
      (apply_match_effect E pA pNA st teams winners).1 =
        bump_counters (winner_ids teams winners) st1 teams := by
  by_cases h0 : teams = []
  · rw [h0] at hok
    exact absurd hok (by simp [apply_match_effect])
  by_cases h1 : winners.any
      (fun w => decide (w < 0 ∨ (teams.length : Int) ≤ w)) = true
  · have hex : ∃ x ∈ winners, x < 0 ∨ (teams.length : Int) ≤ x := by simpa using h1
    exact absurd hok (by simp [apply_match_effect, h0, hex])
  refine ⟨h0, ?_, ?_⟩
  · intro w hw
    have hnot : ¬ (w < 0 ∨ (teams.length : Int) ≤ w) := by
      intro hcon
      exact h1 (List.any_eq_true.mpr ⟨w, hw, decide_eq_true hcon⟩)
    rcases not_or.mp hnot with ⟨ha, hb⟩
    exact ⟨not_lt.mp ha, not_le.mp hb⟩
  · have hout : apply_match_effect E pA pNA st teams winners =
        (match dist_teams pA pNA st
            (teams.zip ((pair_deltas E (teams.map (team_sum st)) winners).zip
              (teams.map (team_sum st)))) with
         | (st1, .ok _) =>
             (bump_counters (winner_ids teams winners) st1 teams, .ok ())
         | (st1, .error e) => (st1, .error e)) := by
      simp only [apply_match_effect, if_neg h0, if_neg h1]
    rcases hd : dist_teams pA pNA st
        (teams.zip ((pair_deltas E (teams.map (team_sum st)) winners).zip
          (teams.map (team_sum st)))) with ⟨st1, r⟩
    rw [hd] at hout
    cases r with
    | ok u =>
        refine ⟨st1, ?_, by rw [hout]⟩
        intro j
        have h := dist_teams_proj (fun u => (u.wins, u.games)) (fun _ _ => rfl)
          pA pNA (teams.zip ((pair_deltas E (teams.map (team_sum st)) winners).zip
            (teams.map (team_sum st)))) st j
        rw [hd] at h
        exact h
    | error e =>
        rw [hout] at hok
        exact absurd hok (by simp)

theorem apply_ok_counters (E pA pNA : ℚ → ℚ) (st : store) (teams : List team)
    (winners : List Int) (hwf : (member_ids teams).Nodup)
    (hok : (apply_match_effect E pA pNA st teams winners).2 = .ok ()) (i : Nat) :
    (store_find (apply_match_effect E pA pNA st teams winners).1 i).map
        (fun u => (u.wins, u.games)) =
      (store_find st i).map (fun u =>
        (u.wins + (if (∃ ti < teams.length, ((ti : Int) ∈ winners) ∧
            i ∈ (teams.getD ti ⟨[]⟩).members.map user.id) then 1 else 0),
         u.games + (if i ∈ member_ids teams then 1 else 0))) := by
  obtain ⟨hne, hval, st1, hproj, hres⟩ := apply_ok_shape E pA pNA st teams winners hok
  rw [hres, bump_counters_find]
  have hcomp : ((store_find st1 i).map (fun u =>
      { u with games := u.games + occ_count teams i,
               wins := u.wins +
                 (if (winner_ids teams winners).contains i then occ_count teams i
                  else 0) })).map (fun u => (u.wins, u.games))
      = ((store_find st1 i).map (fun u => (u.wins, u.games))).map (fun p =>
          (p.1 + (if (winner_ids teams winners).contains i then occ_count teams i
            else 0),
           p.2 + occ_count teams i)) := by
    cases store_find st1 i <;> rfl
  rw [hcomp, hproj i]
  cases hfind : store_find st i with
  | none => rfl
  | some u =>
      simp only [Option.map_some']
      rw [winner_wins_bridge teams winners i hwf hval, occ_count_wf teams i hwf]

theorem reset_find (st : store) (i : Nat) :
    store_find (st.map (fun kv => (kv.1, reset_user kv.2))) i =
      (store_find st i).map reset_user := by
  induction st with
  | nil => rfl
  | cons kv rest ih =>
      by_cases h : kv.1 = i <;> simp [store_find, h, ih]

theorem replay_ok_counters (E pA pNA : ℚ → ℚ) :
    ∀ (l : List match_record) (st : store),
      (∀ mr ∈ l, record_wf mr) →
      (replay E pA pNA st l).2 = .ok () →
      ∀ i,
        (store_find (replay E pA pNA st l).1 i).map (fun u => (u.wins, u.games)) =
          (store_find st i).map (fun u =>
            (u.wins + wins_count i l, u.games + games_count i l)) := by
  intro l
  induction l with
  | nil =>
      intro st _ _ i
      simp only [replay, wins_count, games_count, List.countP_nil]
      cases store_find st i <;> simp
  | cons mr rest ih =>
      intro st hwf hok i
      rcases ha : apply_match_effect E pA pNA st mr.teams mr.winning_teams
        with ⟨st1, r⟩
      cases r with
      | error e =>
          rw [show replay E pA pNA st (mr :: rest) =
              (st1, .error e) from by simp [replay, ha]] at hok
          exact absurd hok (by simp)
      | ok v =>
          have hok1 : (apply_match_effect E pA pNA st mr.teams mr.winning_teams).2 =
              .ok () := by rw [ha]
          simp only [replay, ha] at hok ⊢
          have hrest := ih st1 (fun x hx => hwf x (List.mem_cons_of_mem _ hx)) hok i
          rw [hrest]
          have happ := apply_ok_counters E pA pNA st mr.teams mr.winning_teams
            (hwf mr (by simp)) hok1 i
          rw [ha] at happ
          have hsplit : (store_find st1 i).map (fun u =>
              (u.wins + wins_count i rest, u.games + games_count i rest))
            = ((store_find st1 i).map (fun u => (u.wins, u.games))).map (fun p =>
                (p.1 + wins_count i rest, p.2 + games_count i rest)) := by
            cases store_find st1 i <;> rfl
          rw [hsplit, happ]
          cases hf : store_find st i with
          | none => rfl
          | some u =>
              simp only [Option.map_some', Option.some.injEq, Prod.mk.injEq]
              have hg : games_count i (mr :: rest) =
                  games_count i rest + (if occurs_in i mr then 1 else 0) := by
                simp [games_count, List.countP_cons]
              have hw : wins_count i (mr :: rest) =
                  wins_count i rest + (if wins_in i mr then 1 else 0) := by
                simp [wins_count, List.countP_cons]
              rw [hg, hw]
              unfold occurs_in wins_in
              constructor <;> omega

/-- C7 (confirmed): after a successful `recompute_ratings` on a history of
well-formed records (no id in two member slots of one record — the
data-model partition invariant), every stored participant's `games` equals
the number of history records in which its id appears as a team member, and
its `wins` the number of those records whose team containing it has its
index in `winning_teams`. -/
theorem recompute_counters (E pA pNA : ℚ → ℚ) (st : store)
    (history : List match_record)
    (hwf : ∀ mr ∈ history, record_wf mr)
    (hok : (recompute_ratings E pA pNA st history).2 = .ok ()) :
    ∀ i u, store_find (recompute_ratings E pA pNA st history).1 i = some u →
      u.games = games_count i history ∧ u.wins = wins_count i history := by
  intro i u hu
  unfold recompute_ratings at hok hu
  have hperm : List.Perm (history.insertionSort (fun a b => a.when ≤ b.when))
      history := List.perm_insertionSort _ history
  have hwf' : ∀ mr ∈ history.insertionSort (fun a b => a.when ≤ b.when),
      record_wf mr := fun mr hm => hwf mr (hperm.mem_iff.mp hm)
  have hmain := replay_ok_counters E pA pNA
    (history.insertionSort (fun a b => a.when ≤ b.when))
    (st.map (fun kv => (kv.1, reset_user kv.2))) hwf' hok i
  rw [hu, reset_find] at hmain
  have hcg : games_count i (history.insertionSort (fun a b => a.when ≤ b.when)) =
      games_count i history := hperm.countP_eq _
  have hcw : wins_count i (history.insertionSort (fun a b => a.when ≤ b.when)) =
      wins_count i history := hperm.countP_eq _
  cases hf : store_find st i with
  | none => rw [hf] at hmain; exact absurd hmain (by simp)
  | some v =>
      rw [hf] at hmain
      simp only [Option.map_some', Option.some.injEq, Prod.mk.injEq,
        reset_user] at hmain
      obtain ⟨hw1, hg1⟩ := hmain
      rw [hcg] at hg1
      rw [hcw] at hw1
      exact ⟨by simpa using hg1, by simpa using hw1⟩

/-- Witness for the replay-counter theorem on a one-match history. -/
theorem recompute_counters_witness :
    (∀ mr ∈ [mrW], record_wf mr) ∧
    (recompute_ratings one_fun one_fun one_fun stW [mrW]).2 = .ok () ∧
    (uW.games = games_count 1 [mrW] ∧ uW.wins = wins_count 1 [mrW]) :=
  ⟨by decide, by decide,
   recompute_counters one_fun one_fun one_fun stW [mrW] (by decide) (by decide)
     1 uW (by decide)⟩

/-! ## Absent roster members -/

theorem dist_team_ok (pA pNA : ℚ → ℚ)
    (hpA : ∀ r, 0 < r → 0 < pA r) (hpNA : ∀ r, 0 < r → 0 < pNA r)
    (st : store) (tm : team) (td ts : ℚ) :
    (dist_team pA pNA st tm td ts).2 = .ok () := by
  by_cases h1 : tm.members = []
  · simp [dist_team, h1]
  by_cases h2 : td = 0
  · simp [dist_team, h1, h2]
  by_cases h3 : ts ≤ 0
  · simp [dist_team, h1, h2, h3]
  · have hW : (0 : ℚ) <
        (tm.members.map (member_weight pA pNA (decide (0 < td)) st)).sum := by
      apply List.sum_pos
      · intro x hx
        obtain ⟨m, _, rfl⟩ := List.mem_map.mp hx
        have hr : ∀ r : ℚ, 0 < r →
            0 < member_weight pA pNA (decide (0 < td)) st m →
            True := fun _ _ _ => trivial
        unfold member_weight
        have hfloor : (0 : ℚ) < k_weight_floor := by norm_num [k_weight_floor]
        have hrpos : ∀ q : ℚ, 0 < qmax q k_weight_floor := by
          intro q
          unfold qmax
          split_ifs with h
          · exact hfloor
          · exact lt_of_lt_of_le hfloor (not_lt.mp h)
        rcases store_find st m.id with _ | u
        · cases hwin : decide (0 < td) <;> simp only [hwin]
          · exact hpA _ hfloor
          · exact hpNA _ hfloor
        · cases hwin : decide (0 < td) <;> simp only [hwin]
          · exact hpA _ (hrpos u.point)
          · exact hpNA _ (hrpos u.point)
      · exact fun hnil => h1 (List.map_eq_nil_iff.mp hnil)
    simp [dist_team, h1, h2, h3, not_not_intro hW, hW]

theorem dist_teams_ok (pA pNA : ℚ → ℚ)
    (hpA : ∀ r, 0 < r → 0 < pA r) (hpNA : ∀ r, 0 < r → 0 < pNA r) :
    ∀ (l : List (team × ℚ × ℚ)) (st : store),
      (dist_teams pA pNA st l).2 = .ok () := by
  intro l
  induction l with
  | nil => intro st; rfl
  | cons x rest ih =>
      intro st
      obtain ⟨tm, td, ts⟩ := x
      rcases hd : dist_team pA pNA st tm td ts with ⟨st', r⟩
      have hok := dist_team_ok pA pNA hpA hpNA st tm td ts
      rw [hd] at hok
      cases r with
      | ok u => simp only [dist_teams, hd]; exact ih st'
      | error e => exact absurd hok (by simp)

/-- C2 (amended): `apply_match_effect` is atomic.  For weight curves with
the positivity the real `std::pow(r, ±0.6)` has on the floored (finite)
ratings, the weight normalizer is a sum of positive terms, so the only
errors the call can return are the input-validation ones — empty team list,
out-of-range winner index — raised before any mutation: a failing call
returns the store unchanged.  `recompute_all_from_history`, by contrast, is
not atomic (see the counterexample): it resets every participant before
replaying, so a replay failure surfaces with the reset and any earlier
matches' effects already applied. -/
theorem apply_match_effect_atomic (E pA pNA : ℚ → ℚ)
    (hpA : ∀ r, 0 < r → 0 < pA r) (hpNA : ∀ r, 0 < r → 0 < pNA r)
    (st : store) (teams : List team) (winners : List Int) :
    ∀ e, (apply_match_effect E pA pNA st teams winners).2 = .error e →
      (apply_match_effect E pA pNA st teams winners).1 = st := by
  intro e he
  by_cases h0 : teams = []
  · simp [apply_match_effect, h0]
  by_cases h1 : winners.any
      (fun w => decide (w < 0 ∨ (teams.length : Int) ≤ w)) = true
  · have hex : ∃ x ∈ winners, x < 0 ∨ (teams.length : Int) ≤ x := by simpa using h1
    simp [apply_match_effect, h0, hex]
  · have hout : apply_match_effect E pA pNA st teams winners =
        (match dist_teams pA pNA st
            (teams.zip ((pair_deltas E (teams.map (team_sum st)) winners).zip
              (teams.map (team_sum st)))) with
         | (st1, .ok _) =>
             (bump_counters (winner_ids teams winners) st1 teams, .ok ())
         | (st1, .error e) => (st1, .error e)) := by
      simp only [apply_match_effect, if_neg h0, if_neg h1]
    rcases hd : dist_teams pA pNA st
        (teams.zip ((pair_deltas E (teams.map (team_sum st)) winners).zip
          (teams.map (team_sum st)))) with ⟨st1, r⟩
    have hdok := dist_teams_ok pA pNA hpA hpNA
      (teams.zip ((pair_deltas E (teams.map (team_sum st)) winners).zip
        (teams.map (team_sum st)))) st
    rw [hd] at hout hdok
    cases r with
    | error e2 => exact absurd hdok (by simp)
    | ok v =>
        rw [hout] at he
        exact absurd he (by simp)

/-- Witness for the atomicity theorem at a failing (empty team list) call. -/
theorem apply_match_effect_atomic_witness :
    (∀ r : ℚ, 0 < r → 0 < one_fun r) ∧
    ((apply_match_effect one_fun one_fun one_fun stA [] []).2 =
      .error teams_must_positive) ∧
    ((apply_match_effect one_fun one_fun one_fun stA [] []).1 = stA) := by
  have hpos : ∀ r : ℚ, 0 < r → 0 < one_fun r := by
    intro r _; norm_num [one_fun]
  exact ⟨hpos, by decide,
    apply_match_effect_atomic one_fun one_fun one_fun hpos hpos stA [] []
      teams_must_positive (by decide)⟩

theorem team_sum_filter (st : store) (ms : List user) :
    ∀ acc : ℚ,
      ms.foldl (fun s m =>
        match store_find st m.id with
        | some u => s + u.point
        | none => s) acc =
      (ms.filter (fun m => (store_find st m.id).isSome)).foldl
        (fun s m =>
          match store_find st m.id with
          | some u => s + u.point
          | none => s) acc := by
  induction ms with
  | nil => intro acc; rfl
  | cons m rest ih =>
      intro acc
      rcases hf : store_find st m.id with _ | u
      · have hfil : (m :: rest).filter (fun m => (store_find st m.id).isSome) =
            rest.filter (fun m => (store_find st m.id).isSome) := by
          simp [List.filter_cons, hf]
        rw [hfil]
        simp only [List.foldl_cons, hf]
        exact ih acc
      · have hfil : (m :: rest).filter (fun m => (store_find st m.id).isSome) =
            m :: rest.filter (fun m => (store_find st m.id).isSome) := by
          simp [List.filter_cons, hf]
        rw [hfil]
        simp only [List.foldl_cons, hf]
        exact ih _

theorem pair_fold_inner_length (E : ℚ → ℚ) (rs : List ℚ) (w : List Int)
    (i : Nat) :
    ∀ (l : List Nat) (d : List ℚ),
      (l.foldl (fun d j => if i < j then pair_update E rs w d i j else d) d).length
        = d.length := by
  intro l
  induction l with
  | nil => intro d; rfl
  | cons j r2 ih =>
      intro d
      simp only [List.foldl_cons]
      rw [ih]
      by_cases hij : i < j
      · rw [if_pos hij, pair_update_length]
      · rw [if_neg hij]

theorem pair_deltas_length (E : ℚ → ℚ) (rs : List ℚ) (w : List Int) :
    (pair_deltas E rs w).length = rs.length := by
  unfold pair_deltas
  have houter : ∀ (l : List Nat) (d : List ℚ),
      (l.foldl (fun d i => (List.range rs.length).foldl
        (fun d j => if i < j then pair_update E rs w d i j else d) d) d).length
        = d.length := by
    intro l
    induction l with
    | nil => intro d; rfl
    | cons i rest ih =>
        intro d
        simp only [List.foldl_cons]
        rw [ih, pair_fold_inner_length]
  rw [houter]
  simp

theorem fold_set_untouched {α : Type} (mid : α → Nat) (np : α → user → ℚ)
    (k : Nat) :
    ∀ (l : List α) (s : store), (∀ a ∈ l, mid a ≠ k) →
      store_find (l.foldl (fun s a =>
        match store_find s (mid a) with
        | some u => store_set s (mid a) { u with point := np a u }
        | none => s) s) k = store_find s k := by
  intro l
  induction l with
  | nil => intro s _; rfl
  | cons a rest ih =>
      intro s h
      simp only [List.foldl_cons]
      rw [ih _ (fun x hx => h x (List.mem_cons_of_mem _ hx))]
      rcases hf : store_find s (mid a) with _ | u
      · simp only [hf]
      · simp only [hf]
        exact store_find_set_ne s (mid a) k _ (fun he => h a (by simp) he.symm)

theorem dist_team_untouched (pA pNA : ℚ → ℚ) (st : store) (tm : team)
    (td ts : ℚ) (k : Nat) (h : k ∉ tm.members.map user.id) :
    store_find (dist_team pA pNA st tm td ts).1 k = store_find st k := by
  have hmem : ∀ m ∈ tm.members, m.id ≠ k := fun m hm he =>
    h (List.mem_map.mpr ⟨m, hm, he⟩)
  by_cases h1 : tm.members = []
  · simp [dist_team, h1]
  by_cases h2 : td = 0
  · simp [dist_team, h1, h2]
  by_cases h3 : ts ≤ 0
  · simp only [dist_team, if_neg h1, if_neg h2, if_pos h3]
    exact fold_set_untouched (fun m => m.id)
      (fun m u => qmax k_min_power (u.point + td * (1 / (tm.members.length : ℚ))))
      k tm.members st hmem
  · simp only [dist_team, if_neg h1, if_neg h2, if_neg h3]
    by_cases h4 : (0 : ℚ) <
        (tm.members.map (member_weight pA pNA (decide (0 < td)) st)).sum
    · rw [if_neg (not_not_intro h4)]
      exact fold_set_untouched (fun mw => mw.1.id)
        (fun mw u => qmax k_min_power (u.point + td * (mw.2 /
          (tm.members.map (member_weight pA pNA (decide (0 < td)) st)).sum)))
        k (tm.members.zip (tm.members.map (member_weight pA pNA (decide (0 < td)) st)))
        st (fun mw hmw => hmem mw.1 (List.of_mem_zip hmw).1)
    · rw [if_pos h4]

theorem dist_teams_untouched (pA pNA : ℚ → ℚ) (k : Nat) :
    ∀ (l : List (team × ℚ × ℚ)) (st : store),
      (∀ x ∈ l, k ∉ x.1.members.map user.id) →
      store_find (dist_teams pA pNA st l).1 k = store_find st k := by
  intro l
  induction l with
  | nil => intro st _; rfl
  | cons x rest ih =>
      intro st h
      obtain ⟨tm, td, ts⟩ := x
      rcases hd : dist_team pA pNA st tm td ts with ⟨st1, r⟩
      have hu : store_find st1 k = store_find st k := by
        have h2 := dist_team_untouched pA pNA st tm td ts k (h (tm, td, ts) (by simp))
        rw [hd] at h2
        exact h2
      simp only [dist_teams, hd]
      cases r with
      | ok v =>
          rw [ih st1 (fun y hy => h y (List.mem_cons_of_mem _ hy))]
          exact hu
      | error e => exact hu

theorem fold_set_once {α : Type} (mid : α → Nat) (np : α → user → ℚ)
    (l₁ l₂ : List α) (a₀ : α)
    (h₁ : ∀ a ∈ l₁, mid a ≠ mid a₀) (h₂ : ∀ a ∈ l₂, mid a ≠ mid a₀)
    (s : store) :
    store_find ((l₁ ++ a₀ :: l₂).foldl (fun s a =>
      match store_find s (mid a) with
      | some u => store_set s (mid a) { u with point := np a u }
      | none => s) s) (mid a₀) =
    (store_find s (mid a₀)).map (fun u => { u with point := np a₀ u }) := by
  rw [List.foldl_append, List.foldl_cons]
  have hs1 := fold_set_untouched mid np (mid a₀) l₁ s h₁
  rcases hf : store_find (l₁.foldl (fun s a =>
      match store_find s (mid a) with
      | some u => store_set s (mid a) { u with point := np a u }
      | none => s) s) (mid a₀) with _ | u
  · rw [fold_set_untouched mid np (mid a₀) l₂ _ h₂]
    simp only [hf]
    rw [← hs1, hf]
    rfl
  · rw [fold_set_untouched mid np (mid a₀) l₂ _ h₂]
    simp only [hf]
    rw [store_find_set_self, hf, ← hs1, hf]
    rfl

theorem member_weight_congr (pA pNA : ℚ → ℚ) (b : Bool) (st st1 : store)
    (m : user) (h : store_find st1 m.id = store_find st m.id) :
    member_weight pA pNA b st1 m = member_weight pA pNA b st m := by
  unfold member_weight
  rw [h]

theorem zip_self_map {α β : Type} (l : List α) (f : α → β) :
    l.zip (l.map f) = l.map (fun x => (x, f x)) := by
  have h := List.zip_map' id f l
  rw [List.map_id] at h
  simpa using h

theorem id_mem_member_ids (teams : List team) (t : team) (m : user)
    (ht : t ∈ teams) (hm : m ∈ t.members) : m.id ∈ member_ids teams := by
  unfold member_ids
  rw [List.mem_flatten]
  exact ⟨t.members.map user.id, List.mem_map.mpr ⟨t, ht, rfl⟩,
    List.mem_map.mpr ⟨m, hm, rfl⟩⟩

theorem weights_sum_pos (pA pNA : ℚ → ℚ)
    (hpA : ∀ r, 0 < r → 0 < pA r) (hpNA : ∀ r, 0 < r → 0 < pNA r)
    (st : store) (b : Bool) (ms : List user) (hne : ms ≠ []) :
    0 < (ms.map (member_weight pA pNA b st)).sum := by
  apply List.sum_pos
  · intro x hx
    obtain ⟨m, _, rfl⟩ := List.mem_map.mp hx
    have hfloor : (0 : ℚ) < k_weight_floor := by norm_num [k_weight_floor]
    have hrpos : ∀ q : ℚ, 0 < qmax q k_weight_floor := by
      intro q
      unfold qmax
      split_ifs with h
      · exact hfloor
      · exact lt_of_lt_of_le hfloor (not_lt.mp h)
    unfold member_weight
    rcases store_find st m.id with _ | u
    · cases b
      · exact hpA _ hfloor
      · exact hpNA _ hfloor
    · cases b
      · exact hpA _ (hrpos u.point)
      · exact hpNA _ (hrpos u.point)
  · exact fun hnil => hne (List.map_eq_nil_iff.mp hnil)

theorem dist_team_member (pA pNA : ℚ → ℚ)
    (hpA : ∀ r, 0 < r → 0 < pA r) (hpNA : ∀ r, 0 < r → 0 < pNA r)
    (st : store) (tm : team) (td ts : ℚ)
    (hnd : (tm.members.map user.id).Nodup)
    (m : user) (hm : m ∈ tm.members) (u : user)
    (hu : store_find st m.id = some u) :
    store_find (dist_team pA pNA st tm td ts).1 m.id = some
      { u with point :=
          if td = 0 then u.point
          else if ts ≤ 0 then
            qmax k_min_power (u.point + td * (1 / (tm.members.length : ℚ)))
          else
            qmax k_min_power (u.point + td *
              (member_weight pA pNA (decide (0 < td)) st m /
               (tm.members.map (member_weight pA pNA (decide (0 < td)) st)).sum)) } := by
  have h1 : tm.members ≠ [] := List.ne_nil_of_mem hm
  obtain ⟨l₁, l₂, hsplit⟩ := List.append_of_mem hm
  have hmid : m.id ∉ (l₁.map user.id ++ l₂.map user.id) := by
    have hmid2 : ((l₁.map user.id) ++ m.id :: (l₂.map user.id)).Nodup := by
      have := hnd
      rw [hsplit, List.map_append, List.map_cons] at this
      exact this
    exact (List.nodup_cons.mp (List.nodup_middle.mp hmid2)).1
  have hno1 : ∀ a ∈ l₁, a.id ≠ m.id := fun a ha he =>
    hmid (List.mem_append.mpr (Or.inl (List.mem_map.mpr ⟨a, ha, he⟩)))
  have hno2 : ∀ a ∈ l₂, a.id ≠ m.id := fun a ha he =>
    hmid (List.mem_append.mpr (Or.inr (List.mem_map.mpr ⟨a, ha, he⟩)))
  by_cases h2 : td = 0
  · simp only [dist_team, if_neg h1, if_pos h2]
    rw [hu]
  by_cases h3 : ts ≤ 0
  · simp only [dist_team, if_neg h1, if_neg h2, if_pos h3]
    rw [hsplit]
    have honce := fold_set_once (fun x : user => x.id)
      (fun _ u => qmax k_min_power
        (u.point + td * (1 / ((l₁ ++ m :: l₂).length : ℚ))))
      l₁ l₂ m hno1 hno2 st
    rw [honce, hu]
    simp only [Option.map_some']
  · simp only [dist_team, if_neg h1, if_neg h2, if_neg h3]
    have hW : (0 : ℚ) <
        (tm.members.map (member_weight pA pNA (decide (0 < td)) st)).sum :=
      weights_sum_pos pA pNA hpA hpNA st (decide (0 < td)) tm.members h1
    rw [if_neg (not_not_intro hW), zip_self_map]
    have hmap : tm.members.map
        (fun x => (x, member_weight pA pNA (decide (0 < td)) st x)) =
        (l₁.map (fun x => (x, member_weight pA pNA (decide (0 < td)) st x))) ++
          (m, member_weight pA pNA (decide (0 < td)) st m) ::
          (l₂.map (fun x => (x, member_weight pA pNA (decide (0 < td)) st x))) := by
    -- split the annotated member list along the occurrence of m
      rw [hsplit, List.map_append, List.map_cons]
    rw [hmap]
    have hno1' : ∀ a ∈ l₁.map
        (fun x => (x, member_weight pA pNA (decide (0 < td)) st x)),
        a.1.id ≠ m.id := by
      intro a ha
      obtain ⟨x, hx, rfl⟩ := List.mem_map.mp ha
      exact hno1 x hx
    have hno2' : ∀ a ∈ l₂.map
        (fun x => (x, member_weight pA pNA (decide (0 < td)) st x)),
        a.1.id ≠ m.id := by
      intro a ha
      obtain ⟨x, hx, rfl⟩ := List.mem_map.mp ha
      exact hno2 x hx
    have honce := fold_set_once (fun mw : user × ℚ => mw.1.id)
      (fun mw u => qmax k_min_power (u.point + td * (mw.2 /
        (tm.members.map (member_weight pA pNA (decide (0 < td)) st)).sum)))
      (l₁.map (fun x => (x, member_weight pA pNA (decide (0 < td)) st x)))
      (l₂.map (fun x => (x, member_weight pA pNA (decide (0 < td)) st x)))
      (m, member_weight pA pNA (decide (0 < td)) st m)
      hno1' hno2' st
    rw [honce, hu]
    simp only [Option.map_some']

theorem dist_teams_member (pA pNA : ℚ → ℚ)
    (hpA : ∀ r, 0 < r → 0 < pA r) (hpNA : ∀ r, 0 < r → 0 < pNA r) :
    ∀ (l : List (team × ℚ × ℚ)) (st : store),
      (member_ids (l.map (fun x => x.1))).Nodup →
      ∀ x ∈ l, ∀ m ∈ x.1.members, ∀ u, store_find st m.id = some u →
        store_find (dist_teams pA pNA st l).1 m.id = some
          { u with point :=
              if x.2.1 = 0 then u.point
              else if x.2.2 ≤ 0 then
                qmax k_min_power (u.point + x.2.1 * (1 / (x.1.members.length : ℚ)))
              else
                qmax k_min_power (u.point + x.2.1 *
                  (member_weight pA pNA (decide (0 < x.2.1)) st m /
                   (x.1.members.map
                     (member_weight pA pNA (decide (0 < x.2.1)) st)).sum)) } := by
  intro l
  induction l with
  | nil =>
      intro st _ x hx
      exact absurd hx (List.not_mem_nil x)
  | cons y rest ih =>
      intro st hnd x hx m hm u hu
      obtain ⟨tm, td, ts⟩ := y
      have hnd_eq : member_ids (((tm, td, ts) :: rest).map (fun x => x.1)) =
          tm.members.map user.id ++ member_ids (rest.map (fun x => x.1)) := by
        simp [member_ids]
      rw [hnd_eq] at hnd
      obtain ⟨hnd1, hnd2, hdisj⟩ := List.nodup_append.mp hnd
      rcases hd : dist_team pA pNA st tm td ts with ⟨st1, r⟩
      have hok := dist_team_ok pA pNA hpA hpNA st tm td ts
      rw [hd] at hok
      cases r with
      | error e => exact absurd hok (by simp)
      | ok v =>
          simp only [dist_teams, hd]
          rcases List.mem_cons.mp hx with hx0 | hxr
          · subst hx0
            have hrest : store_find (dist_teams pA pNA st1 rest).1 m.id =
                store_find st1 m.id := by
              apply dist_teams_untouched
              intro y hy hmem
              obtain ⟨m2, hm2, he⟩ := List.mem_map.mp hmem
              have h3 : m.id ∈ member_ids (rest.map (fun x => x.1)) := by
                rw [← he]
                exact id_mem_member_ids _ y.1 m2 (List.mem_map_of_mem _ hy) hm2
              exact hdisj (List.mem_map.mpr ⟨m, hm, rfl⟩) h3
            rw [hrest]
            have hform := dist_team_member pA pNA hpA hpNA st tm td ts hnd1 m hm u hu
            rw [hd] at hform
            exact hform
          · have hm_in_rest : m.id ∈ member_ids (rest.map (fun x => x.1)) :=
              id_mem_member_ids _ x.1 m (List.mem_map_of_mem _ hxr) hm
            have hm_not_tm : m.id ∉ tm.members.map user.id := fun hmem =>
              hdisj hmem hm_in_rest
            have hu1 : store_find st1 m.id = some u := by
              have huntouched := dist_team_untouched pA pNA st tm td ts m.id hm_not_tm
              rw [hd] at huntouched
              rw [huntouched]
              exact hu
            have hcong : ∀ m2 ∈ x.1.members,
                store_find st1 m2.id = store_find st m2.id := by
              intro m2 hm2
              have h4 : m2.id ∉ tm.members.map user.id := fun hmem =>
                hdisj hmem (id_mem_member_ids _ x.1 m2 (List.mem_map_of_mem _ hxr) hm2)
              have huntouched := dist_team_untouched pA pNA st tm td ts m2.id h4
              rw [hd] at huntouched
              exact huntouched
            have hmain := ih st1 hnd2 x hxr m hm u hu1
            rw [hmain]
            have hw1 : member_weight pA pNA (decide (0 < x.2.1)) st1 m =
                member_weight pA pNA (decide (0 < x.2.1)) st m :=
              member_weight_congr pA pNA _ st st1 m (hcong m hm)
            have hw2 : x.1.members.map (member_weight pA pNA (decide (0 < x.2.1)) st1) =
                x.1.members.map (member_weight pA pNA (decide (0 < x.2.1)) st) :=
              List.map_congr_left
                (fun m2 hm2 => member_weight_congr pA pNA _ st st1 m2 (hcong m2 hm2))
            rw [hw1, hw2]

/-- C10 (confirmed): `apply_match_effect` tolerates member ids that are
absent from the Roster Store.  Under the validation preconditions (and the
positivity the real weight curves have), the call succeeds for every store;
ids absent before the call are still absent after it (their rating and
counters are never touched — there is nothing to touch — and no error is
reported); each team's strength is exactly the sum over its store-present
members, the absent ones contributing zero; and (for records satisfying the
data-model partition invariant) every store-present member's new rating is
exactly `max(0, point + td·(w/W))` per `member_new_point`, whose normalizer
`W` sums the weights of ALL member slots of its team — an absent slot holds
a positive floor weight, so its share of the team delta is dropped, not
redistributed to the present members, and the present members are updated
by precisely the documented formula. -/
theorem apply_match_effect_absent_member (E pA pNA : ℚ → ℚ)
    (hpA : ∀ r, 0 < r → 0 < pA r) (hpNA : ∀ r, 0 < r → 0 < pNA r)
    (st : store) (teams : List team) (winners : List Int)
    (hne : teams ≠ [])
    (hval : ∀ w ∈ winners, 0 ≤ w ∧ w < (teams.length : Int)) :
    (apply_match_effect E pA pNA st teams winners).2 = .ok () ∧
    (∀ i, store_find st i = none →
      store_find (apply_match_effect E pA pNA st teams winners).1 i = none) ∧
    (∀ t ∈ teams, team_sum st t =
      team_sum st ⟨t.members.filter (fun m => (store_find st m.id).isSome)⟩) ∧
    ((member_ids teams).Nodup →
      ∀ ti, ti < teams.length →
        ∀ m ∈ (teams.getD ti ⟨[]⟩).members, ∀ u, store_find st m.id = some u →
          (store_find (apply_match_effect E pA pNA st teams winners).1 m.id).map
              user.point =
            some (member_new_point pA pNA st (teams.getD ti ⟨[]⟩)
              ((pair_deltas E (teams.map (team_sum st)) winners).getD ti 0) u m)) := by
  have hany : ¬ (winners.any
      (fun w => decide (w < 0 ∨ (teams.length : Int) ≤ w)) = true) := by
    simp only [List.any_eq_true]
    rintro ⟨w, hmem, hc⟩
    rcases of_decide_eq_true hc with hlt | hle
    · exact absurd hlt (not_lt.mpr (hval w hmem).1)
    · exact absurd hle (not_le.mpr (hval w hmem).2)
  have hout : apply_match_effect E pA pNA st teams winners =
      (match dist_teams pA pNA st
          (teams.zip ((pair_deltas E (teams.map (team_sum st)) winners).zip
            (teams.map (team_sum st)))) with
       | (st1, .ok _) =>
           (bump_counters (winner_ids teams winners) st1 teams, .ok ())
       | (st1, .error e) => (st1, .error e)) := by
    simp only [apply_match_effect, if_neg hne, if_neg hany]
  rcases hd : dist_teams pA pNA st
      (teams.zip ((pair_deltas E (teams.map (team_sum st)) winners).zip
        (teams.map (team_sum st)))) with ⟨st1, r⟩
  have hdok := dist_teams_ok pA pNA hpA hpNA
    (teams.zip ((pair_deltas E (teams.map (team_sum st)) winners).zip
      (teams.map (team_sum st)))) st
  rw [hd] at hout hdok
  cases r with
  | error e => exact absurd hdok (by simp)
  | ok v =>
      refine ⟨by rw [hout], ?_, ?_, ?_⟩
      · intro i hi
        have hdom : (store_find st1 i).map (fun _ => ()) =
            (store_find st i).map (fun _ => ()) := by
          have h := dist_teams_proj (fun _ => ()) (fun _ _ => rfl) pA pNA
            (teams.zip ((pair_deltas E (teams.map (team_sum st)) winners).zip
              (teams.map (team_sum st)))) st i
          rw [hd] at h
          exact h
        rw [hi] at hdom
        have hnone : store_find st1 i = none := by
          rcases hcase : store_find st1 i with _ | u
          · rfl
          · rw [hcase] at hdom; exact absurd hdom (by simp)
        rw [hout]
        simp only [bump_counters_find, hnone, Option.map_none']
      · intro t _
        unfold team_sum
        exact team_sum_filter st t.members 0
      · intro hnd ti hti m hm u hu
        have hld : (pair_deltas E (teams.map (team_sum st)) winners).length =
            teams.length := by
          rw [pair_deltas_length]; simp
        have hlzr : ((pair_deltas E (teams.map (team_sum st)) winners).zip
            (teams.map (team_sum st))).length = teams.length := by
          simp [hld]
        have hti_d : ti < (pair_deltas E (teams.map (team_sum st)) winners).length := by
          rw [hld]; exact hti
        have hti_r : ti < (teams.map (team_sum st)).length := by
          simpa using hti
        have hti_z : ti < (teams.zip
            ((pair_deltas E (teams.map (team_sum st)) winners).zip
              (teams.map (team_sum st)))).length := by
          simp only [List.length_zip, hlzr]
          omega
        have hmapfst : (teams.zip
            ((pair_deltas E (teams.map (team_sum st)) winners).zip
              (teams.map (team_sum st)))).map (fun x => x.1) = teams := by
          apply List.map_fst_zip
          rw [hlzr]
        have hnd2 : (member_ids ((teams.zip
            ((pair_deltas E (teams.map (team_sum st)) winners).zip
              (teams.map (team_sum st)))).map (fun x => x.1))).Nodup := by
          rw [hmapfst]; exact hnd
        have hgd_t : teams.getD ti ⟨[]⟩ = teams[ti] :=
          List.getD_eq_getElem teams ⟨[]⟩ hti
        have hgd_d : (pair_deltas E (teams.map (team_sum st)) winners).getD ti 0 =
            (pair_deltas E (teams.map (team_sum st)) winners)[ti] :=
          List.getD_eq_getElem _ 0 hti_d
        have hx_elem : (teams.zip
            ((pair_deltas E (teams.map (team_sum st)) winners).zip
              (teams.map (team_sum st))))[ti] =
            (teams[ti], (pair_deltas E (teams.map (team_sum st)) winners)[ti],
              (teams.map (team_sum st))[ti]) := by
          simp [List.getElem_zip]
        have hx_mem : (teams[ti],
            (pair_deltas E (teams.map (team_sum st)) winners)[ti],
            (teams.map (team_sum st))[ti]) ∈ teams.zip
              ((pair_deltas E (teams.map (team_sum st)) winners).zip
                (teams.map (team_sum st))) := by
          rw [← hx_elem]
          exact List.getElem_mem hti_z
        rw [hgd_t] at hm
        have hform := dist_teams_member pA pNA hpA hpNA
          (teams.zip ((pair_deltas E (teams.map (team_sum st)) winners).zip
            (teams.map (team_sum st)))) st hnd2
          (teams[ti], (pair_deltas E (teams.map (team_sum st)) winners)[ti],
            (teams.map (team_sum st))[ti]) hx_mem m hm u hu
        rw [hd] at hform
        rw [hout]
        show (store_find (bump_counters (winner_ids teams winners) st1 teams)
            m.id).map user.point = _
        rw [bump_counters_points, hform]
        simp only [Option.map_some']
        unfold member_new_point
        rw [hgd_t, hgd_d]
        have hrt : (teams.map (team_sum st))[ti] = team_sum st teams[ti] := by
          simp
        rw [hrt, if_neg (List.ne_nil_of_mem hm)]

/-- Witness for the absent-member theorem: team 0 contains the absent id
`99` next to a present member. -/
theorem apply_match_effect_absent_member_witness :
    (∀ r : ℚ, 0 < r → 0 < one_fun r) ∧
    (([⟨[uA, gU]⟩, ⟨[uB]⟩] : List team) ≠ []) ∧
    ((apply_match_effect one_fun one_fun one_fun stA
        [⟨[uA, gU]⟩, ⟨[uB]⟩] [0]).2 = .ok () ∧
      (∀ i, store_find stA i = none →
        store_find (apply_match_effect one_fun one_fun one_fun stA
          [⟨[uA, gU]⟩, ⟨[uB]⟩] [0]).1 i = none) ∧
      (∀ t ∈ ([⟨[uA, gU]⟩, ⟨[uB]⟩] : List team), team_sum stA t =
        team_sum stA ⟨t.members.filter (fun m => (store_find stA m.id).isSome)⟩) ∧
      ((member_ids [⟨[uA, gU]⟩, ⟨[uB]⟩]).Nodup →
        ∀ ti, ti < ([⟨[uA, gU]⟩, ⟨[uB]⟩] : List team).length →
          ∀ m ∈ (([⟨[uA, gU]⟩, ⟨[uB]⟩] : List team).getD ti ⟨[]⟩).members,
            ∀ u, store_find stA m.id = some u →
              (store_find (apply_match_effect one_fun one_fun one_fun stA
                  [⟨[uA, gU]⟩, ⟨[uB]⟩] [0]).1 m.id).map user.point =
                some (member_new_point one_fun one_fun stA
                  (([⟨[uA, gU]⟩, ⟨[uB]⟩] : List team).getD ti ⟨[]⟩)
                  ((pair_deltas one_fun
                      (([⟨[uA, gU]⟩, ⟨[uB]⟩] : List team).map (team_sum stA))
                      [0]).getD ti 0) u m))) := by
  have hpos : ∀ r : ℚ, 0 < r → 0 < one_fun r := by
    intro r _; norm_num [one_fun]
  refine ⟨hpos, by simp, ?_⟩
  exact apply_match_effect_absent_member one_fun one_fun one_fun hpos hpos stA
    [⟨[uA, gU]⟩, ⟨[uB]⟩] [0] (by simp)
    (by intro x hx; simp at hx; simp [hx])

end MesBot
